import Mathlib

/-!
Verification development for the price-tool repository.

The two core algorithms of the repository are embedded shallowly:

* the AWS-Signature-V4 request signer (`signAwsRequest`, with helpers
  `toHex`, `sha256`, `getSignatureKey`) from
  `supabase/functions/format-pricelist/index.ts`;
* the AI-response recovery parser (`parseAIResponse`) from
  `supabase/functions/enrich-seo/index.ts`.

The cryptographic primitives SHA-256 and HMAC-SHA-256 are platform
primitives (`crypto.subtle`); the source treats them as trusted building
blocks, so they are abstracted here as the fields of a `Crypto` structure
and every signer definition is parameterised over them.  The JavaScript
platform pieces the source relies on (the WHATWG `URL` class, `JSON.parse`
on the flat objects this code ever feeds it, JavaScript regular-expression
replacement and matching, `String.prototype.trim`) are modelled explicitly
below, each faithful to the platform semantics on the inputs this
repository produces.
-/

/-! ## Byte and hex utilities -/

/-- UTF-8 bytes of a string, as the `TextEncoder().encode` of the source. -/
def strBytes (s : String) : List Nat := s.toUTF8.toList.map (fun b => b.toNat)

/-- Lowercase hexadecimal digit for a value below 16. -/
def hexDigit (n : Nat) : Char :=
  if n < 10 then Char.ofNat (48 + n) else Char.ofNat (87 + n)

/-- Two lowercase hex digits of one byte: the source's
`b.toString(16).padStart(2, '0')` for byte values below 256. -/
def byteHex (b : Nat) : String := String.mk [hexDigit (b / 16 % 16), hexDigit (b % 16)]

/-- `toHex` from `format-pricelist/index.ts`: lowercase hex of a byte list. -/
def toHex (data : List Nat) : String := String.join (data.map byteHex)

/-! ## Abstract cryptographic primitives -/

/-- The two platform primitives used by the signer (`crypto.subtle`):
a SHA-256 digest of a string's UTF-8 bytes, and an HMAC-SHA-256 of a
string's UTF-8 bytes under a raw byte key.  The spec treats both as
trusted building blocks, so the whole development is parameterised
over them. -/
structure Crypto where
  sha256digest : String → List Nat
  hmacSha256 : List Nat → String → List Nat

/-- `sha256` from the source: hex encoding of the SHA-256 digest. -/
def sha256 (C : Crypto) (data : String) : String := toHex (C.sha256digest data)

/-- `getSignatureKey` from the source: the four chained HMAC applications
deriving the signing key, each keyed with the previous step's raw bytes. -/
def getSignatureKey (C : Crypto) (key dateStamp region service : String) : List Nat :=
  let kDate := C.hmacSha256 (strBytes ("AWS4" ++ key)) dateStamp
  let kRegion := C.hmacSha256 kDate region
  let kService := C.hmacSha256 kRegion service
  let kSigning := C.hmacSha256 kService ("aws4_request")
  kSigning

/-! ## URL host and pathname

Models the WHATWG `URL` class properties `host` and `pathname` used by the
source (`new URL(url)`), for well-formed absolute URLs — the spec makes
malformed URLs a caller precondition violation. -/

/-- Match a literal character list at the head; give back the rest. -/
def litRest : List Char → List Char → Option (List Char)
  | [], l => some l
  | _ :: _, [] => none
  | p :: ps, c :: l => if c = p then litRest ps l else none

/-- The rest of the list after the first occurrence of a pattern. -/
def afterSub (pat : List Char) : List Char → Option (List Char)
  | [] => litRest pat []
  | c :: r =>
    match litRest pat (c :: r) with
    | some rest => some rest
    | none => afterSub pat r

/-- Characters that may appear in the host portion of a URL. -/
def hostChar (c : Char) : Bool := c ≠ '/' && c ≠ '?' && c ≠ '#'

/-- The part of a URL after the `://` scheme separator. -/
def urlTail (url : String) : List Char :=
  (afterSub (("://").data) url.data).getD url.data

/-- The `host` property of the WHATWG `URL` class (includes a port). -/
def urlHost (url : String) : String := String.mk ((urlTail url).takeWhile hostChar)

/-- The `pathname` property of the WHATWG `URL` class: from the first `/`
after the host up to (excluding) any query string or fragment. -/
def urlPathname (url : String) : String :=
  match (urlTail url).dropWhile hostChar with
  | '/' :: r2 => String.mk (('/' :: r2).takeWhile (fun c => c ≠ '?' && c ≠ '#'))
  | _ => "/"

/-! ## Timestamp compaction -/

/-- Scanner for the source regex replacement
`now.toISOString().replace(/[:-]|\.\d\x7b3\x7d/g, '')`: removes every `:`
and `-`, and every `.` followed by exactly three digits. -/
def amzAux : List Char → List Char
  | [] => []
  | '.' :: d1 :: d2 :: d3 :: rest =>
    if d1.isDigit ∧ d2.isDigit ∧ d3.isDigit then amzAux rest
    else '.' :: amzAux (d1 :: d2 :: d3 :: rest)
  | c :: cs =>
    if c = ':' ∨ c = '-' then amzAux cs else c :: amzAux cs

/-- The compact `YYYYMMDDTHHMMSSZ` timestamp the source derives from an
ISO-8601 instant string. -/
def amzCompact (s : String) : String := String.mk (amzAux s.data)

/-! ## The signer (`signAwsRequest`)

The source captures `new Date()` once per call; its ISO string is the
`nowISO` parameter, fixing the timestamp of the signing operation. -/

/-- The `amzDate` value of the source for a given instant. -/
def amzDateOf (nowISO : String) : String := amzCompact nowISO

/-- The `dateStamp` value of the source: first eight characters. -/
def dateStampOf (nowISO : String) : String := (amzCompact nowISO).take 8

/-- JavaScript `Array.prototype.join('\n')`. -/
def joinNl : List String → String
  | [] => ""
  | [s] => s
  | s :: rest => s ++ "\n" ++ joinNl rest

/-- The `canonicalHeaders` template literal of the source. -/
def canonicalHeadersOf (url nowISO : String) : String :=
  "content-type:application/json\n" ++ "host:" ++ urlHost url ++ "\n" ++
    "x-amz-date:" ++ amzDateOf nowISO ++ "\n"

/-- The fixed `signedHeaders` list of the source. -/
def signedHeadersConst : String := "content-type;host;x-amz-date"

/-- The fixed algorithm literal of the source. -/
def algorithmConst : String := "AWS4-HMAC-SHA256"

/-- The `canonicalRequest` of the source: the six fields joined by `\n`. -/
def canonicalRequestOf (C : Crypto) (method url body nowISO : String) : String :=
  joinNl [method, urlPathname url, "", canonicalHeadersOf url nowISO,
    signedHeadersConst, sha256 C body]

/-- The `credentialScope` of the source. -/
def credentialScopeOf (region service nowISO : String) : String :=
  dateStampOf nowISO ++ "/" ++ region ++ "/" ++ service ++ "/aws4_request"

/-- The `stringToSign` of the source: the four fields joined by `\n`. -/
def stringToSignOf (C : Crypto) (method url body region service nowISO : String) : String :=
  joinNl [algorithmConst, amzDateOf nowISO, credentialScopeOf region service nowISO,
    sha256 C (canonicalRequestOf C method url body nowISO)]

/-- The `signature` of the source: lowercase hex of the final HMAC. -/
def signatureOf (C : Crypto) (method url body secretKey region service nowISO : String) : String :=
  toHex (C.hmacSha256 (getSignatureKey C secretKey (dateStampOf nowISO) region service)
    (stringToSignOf C method url body region service nowISO))

/-- The `authorizationHeader` template literal of the source, split as the
body-independent part followed by the signature. -/
def authHeaderPrefix (accessKey region service nowISO : String) : String :=
  algorithmConst ++ " Credential=" ++ accessKey ++ "/" ++
    credentialScopeOf region service nowISO ++ ", SignedHeaders=" ++
    signedHeadersConst ++ ", Signature="

/-- The full `authorizationHeader` value of the source. -/
def authorizationHeaderOf
    (C : Crypto) (method url body accessKey secretKey region service nowISO : String) : String :=
  authHeaderPrefix accessKey region service nowISO ++
    signatureOf C method url body secretKey region service nowISO

/-- `signAwsRequest` from `format-pricelist/index.ts`: the header record
the function returns, in source order. -/
def signAwsRequest
    (C : Crypto) (method url body accessKey secretKey region service nowISO : String) :
    List (String × String) :=
  [("Content-Type", "application/json"),
   ("X-Amz-Date", amzDateOf nowISO),
   ("Authorization", authorizationHeaderOf C method url body accessKey secretKey region service nowISO)]

/-- Header lookup in the returned record. -/
def headerGet (name : String) (hs : List (String × String)) : Option String :=
  (hs.find? (fun p => p.1 = name)).map (fun p => p.2)

/-! ## The response-recovery parser (`parseAIResponse`)

The parser from `enrich-seo/index.ts` is built from the JavaScript platform
pieces it uses — regular-expression replacement and matching, `trim`, and
`JSON.parse` — each modelled below with the semantics the platform gives
them on the inputs this code produces.  `JSON.parse` is modelled on the
fragment the code ever feeds it: a single flat object literal whose values
are strings, booleans, `null` or integers (the shape fixed by the prompt's
response schema); every candidate handed to it by the code starts with
`\x7b`. -/

/-- JavaScript whitespace (`\s`, `trim`): the ASCII whitespace characters. -/
def isJsWs (c : Char) : Bool :=
  c = ' ' || c = '\t' || c = '\n' || c = '\r' || c = '\x0b' || c = '\x0c'

/-- JSON whitespace accepted by `JSON.parse` between tokens. -/
def isJsonWs (c : Char) : Bool := c = ' ' || c = '\t' || c = '\n' || c = '\r'

/-- JavaScript `String.prototype.trim`. -/
def jsTrimList (l : List Char) : List Char :=
  ((l.dropWhile isJsWs).reverse.dropWhile isJsWs).reverse

/-- Does the text start with three backticks followed by `json` in any
letter case — the fixed part of the pattern `/\x60\x60\x60json\s*/gi`? -/
def isFenceJson (l : List Char) : Bool :=
  match l with
  | '`' :: '`' :: '`' :: c1 :: c2 :: c3 :: c4 :: _ =>
    c1.toLower = 'j' && c2.toLower = 's' && c3.toLower = 'o' && c4.toLower = 'n'
  | _ => false

/-- Does the text start with three backticks — the fixed part of the
pattern `/\x60\x60\x60\s*/g`? -/
def isFence (l : List Char) : Bool :=
  match l with
  | '`' :: '`' :: '`' :: _ => true
  | _ => false

/-- Scanner for the global replacement of `/\x60\x60\x60json\s*/gi` by the
empty string: at each position, an occurrence of the pattern (the fixed
part plus a greedy whitespace run) is removed and scanning resumes after
it, otherwise one character is kept.  Fuel-indexed; fuel one more than the
length always suffices (`stripTicksJsonFuel_irrel`). -/
def stripTicksJsonFuel : Nat → List Char → List Char
  | 0, _ => []
  | _ + 1, [] => []
  | n + 1, c :: cs =>
    if isFenceJson (c :: cs) then
      stripTicksJsonFuel n (((c :: cs).drop 7).dropWhile isJsWs)
    else c :: stripTicksJsonFuel n cs

/-- The first fence-stripping pass of the source. -/
def stripTicksJson (l : List Char) : List Char := stripTicksJsonFuel (l.length + 1) l

/-- Scanner for the global replacement of `/\x60\x60\x60\s*/g` by the empty
string, fuel-indexed like `stripTicksJsonFuel`. -/
def stripTicksFuel : Nat → List Char → List Char
  | 0, _ => []
  | _ + 1, [] => []
  | n + 1, c :: cs =>
    if isFence (c :: cs) then
      stripTicksFuel n (((c :: cs).drop 3).dropWhile isJsWs)
    else c :: stripTicksFuel n cs

/-- The second fence-stripping pass of the source. -/
def stripTicks (l : List Char) : List Char := stripTicksFuel (l.length + 1) l

/-- The match of `/\x7b[\s\S]*\x7d/` : the span from the first opening brace
to the last closing brace at or after it, if both exist. -/
def jsonMatch (cs : List Char) : Option (List Char) :=
  match cs.dropWhile (fun c => c ≠ '{') with
  | [] => none
  | b :: tail =>
    let rev := tail.reverse.dropWhile (fun c => c ≠ '}')
    if rev.isEmpty then none else some (b :: rev.reverse)

/-- The span matched by the regex `("(?:[^"\\]|\\.)*")` starting right after
an opening quote: the content up to the next unescaped quote, where a
backslash consumes the following character unless it is a line terminator
(`.` does not match those).  Gives back the raw content and the text after
the closing quote. -/
def quotedSplit : List Char → Option (List Char × List Char)
  | [] => none
  | c :: r =>
    if c = '"' then some ([], r)
    else if c = '\\' then
      match r with
      | [] => none
      | e :: r2 =>
        if e = '\n' ∨ e = '\r' then none
        else (quotedSplit r2).map (fun p => ('\\' :: e :: p.1, p.2))
    else (quotedSplit r).map (fun p => (c :: p.1, p.2))

/-- The dot-all variant used by the `seoTitle` regex (flag `s`): a backslash
consumes any following character. -/
def quotedSplitS : List Char → Option (List Char × List Char)
  | [] => none
  | c :: r =>
    if c = '"' then some ([], r)
    else if c = '\\' then
      match r with
      | [] => none
      | e :: r2 => (quotedSplitS r2).map (fun p => ('\\' :: e :: p.1, p.2))
    else (quotedSplitS r).map (fun p => (c :: p.1, p.2))

/-- Global single-character replacement, `String.prototype.replace` with a
one-character pattern and the `g` flag. -/
def replaceChar (x : Char) (repl : List Char) : List Char → List Char
  | [] => []
  | c :: cs => if c = x then repl ++ replaceChar x repl cs else c :: replaceChar x repl cs

/-- Global two-character replacement, `String.prototype.replace` with a
two-character pattern and the `g` flag: after a match, scanning resumes
after the matched pair. -/
def replacePair (a b : Char) (u : List Char) : List Char → List Char
  | [] => []
  | [c] => [c]
  | c :: d :: cs =>
    if c = a ∧ d = b then u ++ replacePair a b u cs
    else c :: replacePair a b u (d :: cs)

/-- The replacement applied to each matched quoted span:
`.replace(/\n/g, '\\n').replace(/\r/g, '\\r')`. -/
def escapeNl (l : List Char) : List Char :=
  replaceChar '\r' ['\\', 'r'] (replaceChar '\n' ['\\', 'n'] l)

/-- The escape-repair step of the source: the global replacement of every
span matched by `/("(?:[^"\\]|\\.)*")/g` with the span with raw newlines
and carriage returns escaped.  Where no quoted span matches at a quote,
scanning resumes at the next character, as the platform does. -/
def repairQuotedFuel : Nat → List Char → List Char
  | 0, _ => []
  | _ + 1, [] => []
  | n + 1, c :: cs =>
    if c = '"' then
      match quotedSplit cs with
      | some p => '"' :: (escapeNl p.1 ++ '"' :: repairQuotedFuel n p.2)
      | none => '"' :: repairQuotedFuel n cs
    else c :: repairQuotedFuel n cs

/-- The repair scanner itself: the fuel is one more than the length, which
`repairQuotedFuel_irrel` below shows is always enough. -/
def repairQuoted (l : List Char) : List Char := repairQuotedFuel (l.length + 1) l

/-! ## `JSON.parse` on the flat fragment -/

/-- A JSON scalar value as this code's objects contain them. -/
inductive JScalar where
  | str (s : String)
  | bool (b : Bool)
  | num (n : Int)
  | null
deriving DecidableEq

deriving instance DecidableEq for Except

/-- A parsed flat JSON object: its fields in source order. -/
abbrev JObject := List (String × JScalar)

/-- Value of a hexadecimal digit. -/
def hexVal (c : Char) : Option Nat :=
  if '0' ≤ c ∧ c ≤ '9' then some (c.toNat - 48)
  else if 'a' ≤ c ∧ c ≤ 'f' then some (c.toNat - 87)
  else if 'A' ≤ c ∧ c ≤ 'F' then some (c.toNat - 55)
  else none

/-- One unit of a JSON string body: a plain character (raw control
characters are a syntax error) or one escape sequence, decoded. -/
def strUnit : List Char → Option (List Char × List Char)
  | [] => none
  | c :: r =>
    if c = '"' then none
    else if c = '\\' then
      match r with
      | [] => none
      | e :: r2 =>
        if e = '"' then some (['"'], r2)
        else if e = '\\' then some (['\\'], r2)
        else if e = '/' then some (['/'], r2)
        else if e = 'b' then some (['\x08'], r2)
        else if e = 'f' then some (['\x0c'], r2)
        else if e = 'n' then some (['\n'], r2)
        else if e = 'r' then some (['\x0d'], r2)
        else if e = 't' then some (['\t'], r2)
        else if e = 'u' then
          match r2 with
          | h1 :: h2 :: h3 :: h4 :: r3 =>
            match hexVal h1, hexVal h2, hexVal h3, hexVal h4 with
            | some v1, some v2, some v3, some v4 =>
              some ([Char.ofNat (((v1 * 16 + v2) * 16 + v3) * 16 + v4)], r3)
            | _, _, _, _ => none
          | _ => none
        else none
    else if c.toNat < 32 then none
    else some ([c], r)

/-- The body of a JSON string literal after its opening quote, as
`JSON.parse` scans it: decoded characters and the rest after the closing
quote.  Fuel-indexed; fuel one more than the length always suffices
(`parseStringBodyFuel_irrel`). -/
def parseStringBodyFuel : Nat → List Char → Option (List Char × List Char)
  | 0, _ => none
  | n + 1, l =>
    if l.head? = some '"' then some ([], l.tail)
    else
      match strUnit l with
      | none => none
      | some p => (parseStringBodyFuel n p.2).map (fun q => (p.1 ++ q.1, q.2))

/-- The JSON string-body scanner itself. -/
def parseStringBody (l : List Char) : Option (List Char × List Char) :=
  parseStringBodyFuel (l.length + 1) l

/-- Decimal digits to a natural number. -/
def digitsToNat (l : List Char) : Nat := l.foldl (fun a c => a * 10 + (c.toNat - 48)) 0

/-- A JSON integer literal (the only numeric shape the modelled fragment
needs; a fraction or exponent falls outside the fragment and is rejected). -/
def parseIntLit (l : List Char) : Option (JScalar × List Char) :=
  let neg := l.head? = some '-'
  let l1 := if neg then l.tail else l
  let digits := l1.takeWhile Char.isDigit
  let rest := l1.dropWhile Char.isDigit
  if digits.isEmpty then none
  else if rest.head? = some '.' ∨ rest.head? = some 'e' ∨ rest.head? = some 'E' then none
  else some (.num (if neg then -(digitsToNat digits : Int) else (digitsToNat digits : Int)), rest)

/-- Expect one specific character at the head. -/
def expectChar (c : Char) : List Char → Option (List Char)
  | [] => none
  | d :: r => if d = c then some r else none

/-- One scalar JSON value: a string, `true`, `false`, `null` or an
integer. -/
def parseScalarValue (l : List Char) : Option (JScalar × List Char) :=
  match l with
  | [] => none
  | c :: r =>
    if c = '"' then (parseStringBody r).map (fun p => (.str (String.mk p.1), p.2))
    else if c = 't' then (litRest (("rue").data) r).map (fun r2 => (.bool true, r2))
    else if c = 'f' then (litRest (("alse").data) r).map (fun r2 => (.bool false, r2))
    else if c = 'n' then (litRest (("ull").data) r).map (fun r2 => (.null, r2))
    else if c = '-' ∨ c.isDigit then parseIntLit l
    else none

/-- One `"key": value` member of the object, leading whitespace included,
trailing whitespace consumed. -/
def parseMember (l : List Char) : Option ((String × JScalar) × List Char) :=
  match expectChar '"' (l.dropWhile isJsonWs) with
  | none => none
  | some l2 =>
    match parseStringBody l2 with
    | none => none
    | some (key, l3) =>
      match expectChar ':' (l3.dropWhile isJsonWs) with
      | none => none
      | some l5 =>
        match parseScalarValue (l5.dropWhile isJsonWs) with
        | none => none
        | some (v, l7) => some ((String.mk key, v), l7.dropWhile isJsonWs)

/-- The members of the object after its opening brace, as `JSON.parse`
scans them: one member, then a comma and further members or the closing
brace.  Fuel-indexed; fuel one more than the length always suffices
(`parseMembersAuxFuel_irrel`). -/
def parseMembersAuxFuel : Nat → List Char → Option (JObject × List Char)
  | 0, _ => none
  | n + 1, l =>
    match parseMember l with
    | none => none
    | some p =>
      if p.2.head? = some ',' then
        (parseMembersAuxFuel n p.2.tail).map (fun q => (p.1 :: q.1, q.2))
      else if p.2.head? = some '}' then some ([p.1], p.2.tail)
      else none

/-- The member scanner itself. -/
def parseMembersAux (l : List Char) : Option (JObject × List Char) :=
  parseMembersAuxFuel (l.length + 1) l

/-- `JSON.parse` on the fragment this code feeds it: a single flat object
literal (leading and trailing whitespace allowed, nothing else after it). -/
def jsonParseFlat (l : List Char) : Option JObject :=
  match l.dropWhile isJsonWs with
  | '{' :: rest =>
    match rest.dropWhile isJsonWs with
    | '}' :: rest2 => if (rest2.dropWhile isJsonWs).isEmpty then some [] else none
    | _ =>
      match parseMembersAux rest with
      | some (fields, rest2) => if (rest2.dropWhile isJsonWs).isEmpty then some fields else none
      | none => none
  | _ => none

/-- JavaScript property read `obj[k]` on a parsed object: the last
occurrence of a key wins, as in `JSON.parse`. -/
def objGet (fields : JObject) (k : String) : Option JScalar :=
  match fields with
  | [] => none
  | p :: rest =>
    match objGet rest k with
    | some v2 => some v2
    | none => if p.1 = k then some p.2 else none

/-- JavaScript property write `obj[k] = v` for a key already present:
updates the value in place. -/
def objSet (fields : JObject) (k : String) (v : JScalar) : JObject :=
  fields.map (fun p => if p.1 = k then (p.1, v) else p)

/-- JavaScript truthiness of the scalar values. -/
def jTruthy : JScalar → Bool
  | .str s => s ≠ ""
  | .bool b => b
  | .num n => n ≠ 0
  | .null => false

/-- The tail of the source's `try` block after `JSON.parse` succeeds:
`if (result.specs) result.specs = result.specs.replace(/\\n/g, '\n')`.
A truthy non-string `specs` makes `.replace` a `TypeError`, caught by the
surrounding `catch`, hence `none`. -/
def strictPost (fields : JObject) : Option JObject :=
  match objGet fields ("specs") with
  | none => some fields
  | some sv =>
    if jTruthy sv then
      match sv with
      | .str s => some (objSet fields ("specs")
          (.str (String.mk (replacePair '\\' 'n' ['\n'] s.data))))
      | _ => none
    else some fields

/-- The whole strict path of `parseAIResponse`: brace-span extraction,
escape repair, `JSON.parse`, post-processing; `none` when any step fails
(the source's `catch` falls through to the manual fallback). -/
def strictPath (t : List Char) : Option JObject :=
  match jsonMatch t with
  | none => none
  | some cand =>
    match jsonParseFlat (repairQuoted cand) with
    | none => none
    | some fields => strictPost fields

/-! ## The manual fallback extraction -/

/-- Everything before the first occurrence of a literal pattern, or `none`
when the pattern does not occur: `indexOf` with its result used to split. -/
def beforeSub (pat : List Char) : List Char → Option (List Char)
  | [] => if (litRest pat ([] : List Char)).isSome then some [] else none
  | c :: r =>
    if (litRest pat (c :: r)).isSome then some []
    else (beforeSub pat r).map (fun x => c :: x)

/-- An attempt of the regex `/"seoTitle"\s*:\s*"((?:[^"\\]|\\.)*)"/s`
anchored at the current position: the literal key, optional whitespace,
a colon, optional whitespace, then a quoted span (dot-all); the capture
group is the raw span content. -/
def seoTitleAt (l : List Char) : Option (List Char) :=
  match litRest (("\"seoTitle\"").data) l with
  | none => none
  | some r =>
    match expectChar ':' (r.dropWhile isJsWs) with
    | none => none
    | some r2 =>
      match expectChar '"' (r2.dropWhile isJsWs) with
      | none => none
      | some r3 => (quotedSplitS r3).map (fun p => p.1)

/-- `text.match` for the `seoTitle` regex: the leftmost position where the
pattern matches, scanning forward one character at a time. -/
def findSeoTitle : List Char → Option (List Char)
  | [] => none
  | c :: r =>
    match seoTitleAt (c :: r) with
    | some g => some g
    | none => findSeoTitle r

/-- An attempt of the regex `/"specs"\s*:\s*"/` anchored at the current
position: gives the rest of the text after the opening quote of the value. -/
def specsStartAt (l : List Char) : Option (List Char) :=
  match litRest (("\"specs\"").data) l with
  | none => none
  | some r =>
    match expectChar ':' (r.dropWhile isJsWs) with
    | none => none
    | some r2 => expectChar '"' (r2.dropWhile isJsWs)

/-- `text.match` for the `specs` start regex, leftmost. -/
def findSpecsStart : List Char → Option (List Char)
  | [] => none
  | c :: r =>
    match specsStartAt (c :: r) with
    | some rest => some rest
    | none => findSpecsStart r

/-- The end marker `", "confident"` the source searches for first. -/
def confidentMarker : List Char := ("\", \"confident\"").data

/-- The end marker `"` + closing brace the source searches for second. -/
def closeMarker : List Char := ("\"\x7d").data

/-- The raw `specs` span of the fallback: from just after the opening quote
of the value to the earliest of the `confident` marker, the closing-brace
marker, or the end of the text; empty when the start pattern is absent. -/
def specsRawOf (t : List Char) : List Char :=
  match findSpecsStart t with
  | none => []
  | some suffix =>
    match beforeSub confidentMarker suffix with
    | some pre => pre
    | none =>
      match beforeSub closeMarker suffix with
      | some pre => pre
      | none => suffix

/-- The manual-extraction fallback of `parseAIResponse`: only for text
starting with an opening brace; needs a `seoTitle` match; unescapes quotes
and collapses `\n` escapes to spaces in the title, converts `\n` escapes to
real newlines and unescapes quotes in the specs; `confident` is `false`. -/
def fallbackPath (t : List Char) : Option JObject :=
  if t.head? = some '{' then
    match findSeoTitle t with
    | none => none
    | some title =>
      some [("seoTitle", .str (String.mk
              (replacePair '\\' 'n' [' '] (replacePair '\\' '"' ['"'] title)))),
            ("specs", .str (String.mk
              (replacePair '\\' '"' ['"'] (replacePair '\\' 'n' ['\n'] (specsRawOf t))))),
            ("confident", .bool false)]
  else none

/-! ## `parseAIResponse` -/

/-- The input normalisation of the source: strip code-fence spans, then
trim. -/
def stripText (text : String) : List Char :=
  jsTrimList (stripTicks (stripTicksJson text.data))

/-- `parseAIResponse` from `enrich-seo/index.ts`: normalise, try the strict
path, fall back to manual extraction, and fail with the source's error
message when both yield nothing. -/
def parseAIResponse (text : String) : Except String JObject :=
  let t := stripText text
  match strictPath t with
  | some fields => .ok fields
  | none =>
    match fallbackPath t with
    | some fields => .ok fields
    | none => .error ("Could not parse AI response")

/-! ## The duplicated definitions of `unnamed/part_001`

`unnamed/part_001` contains its own copies of `signAwsRequest`
(lines 60–112) and `parseAIResponse` (lines 211–259); they are transcribed
here separately so the two copies can be compared. -/

/-- `signAwsRequest` as defined in `unnamed/part_001`. -/
def signAwsRequestP1
    (C : Crypto) (method url body accessKey secretKey region service nowISO : String) :
    List (String × String) :=
  [("Content-Type", "application/json"),
   ("X-Amz-Date", amzDateOf nowISO),
   ("Authorization", authHeaderPrefix accessKey region service nowISO ++
      toHex (C.hmacSha256 (getSignatureKey C secretKey (dateStampOf nowISO) region service)
        (stringToSignOf C method url body region service nowISO)))]

/-- `parseAIResponse` as defined in `unnamed/part_001`. -/
def parseAIResponseP1 (text : String) : Except String JObject :=
  let t := jsTrimList (stripTicks (stripTicksJson text.data))
  match strictPath t with
  | some fields => .ok fields
  | none =>
    match fallbackPath t with
    | some fields => .ok fields
    | none => .error ("Could not parse AI response")

/-- A concrete instantiation of the abstract primitives, used only to
evaluate the signer at specific inputs. -/
def cryptoStub : Crypto where
  sha256digest := fun _ => []
  hmacSha256 := fun _ _ => []

/-- The characters this development lets a serialized string field contain:
anything except a quote, a backslash and control characters other than the
newline. -/
def strChar (c : Char) : Prop := c ≠ '"' ∧ c ≠ '\\' ∧ (32 ≤ c.toNat ∨ c = '\n')

instance (c : Char) : Decidable (strChar c) := by unfold strChar; infer_instance

/-- `JSON.stringify`'s escaping of one such character. -/
def jsonEscapeChar (c : Char) : List Char :=
  if c = '\n' then ['\\', 'n'] else [c]

/-- `JSON.stringify`'s escaping of a string of such characters. -/
def jsonEscape : List Char → List Char
  | [] => []
  | c :: r => jsonEscapeChar c ++ jsonEscape r

/-- `JSON.stringify` of a string of `strChar` characters. -/
def jsonQuote (x : String) : String :=
  "\"" ++ String.mk (jsonEscape x.data) ++ "\""

/-- `JSON.stringify` of the three-field object
`\x7b seoTitle, specs, confident \x7d` (member order as constructed, no
spaces). -/
def stringifyObj3 (t s : String) (c : Bool) : String :=
  "\x7b\"seoTitle\":" ++ jsonQuote t ++ ",\"specs\":" ++ jsonQuote s ++
    ",\"confident\":" ++ (if c then ("true") else ("false")) ++ "\x7d"

/-- The same serialization with the two string fields written raw — no
escaping — as an upstream generator would emit them. -/
def rawSerialize3 (t s : String) (c : Bool) : String :=
  "\x7b\"seoTitle\":\"" ++ t ++ "\",\"specs\":\"" ++ s ++
    "\",\"confident\":" ++ (if c then ("true") else ("false")) ++ "\x7d"

/-- `JSON.stringify`'s escaping of one character, for strings free of
control characters other than newline, carriage return and tab: quotes
and backslashes gain a backslash, those three controls become their
two-character escapes, everything else passes through. -/
def jsEscapeChar (c : Char) : List Char :=
  if c = '"' then ['\\', '"']
  else if c = '\\' then ['\\', '\\']
  else if c = '\n' then ['\\', 'n']
  else if c = '\r' then ['\\', 'r']
  else if c = '\t' then ['\\', 't']
  else [c]

/-- `JSON.stringify`'s escaping of such a string. -/
def jsEscape : List Char → List Char
  | [] => []
  | c :: r => jsEscapeChar c ++ jsEscape r

/-- `JSON.stringify` of such a string, quotes included. -/
def jsStringifyStr (x : String) : String :=
  "\"" ++ String.mk (jsEscape x.data) ++ "\""

/-- `JSON.stringify` of the three-field object, for string fields that may
also hold backslashes and quotes. -/
def jsStringifyObj3 (t s : String) (c : Bool) : String :=
  "\x7b\"seoTitle\":" ++ jsStringifyStr t ++ ",\"specs\":" ++ jsStringifyStr s ++
    ",\"confident\":" ++ (if c then ("true") else ("false")) ++ "\x7d"

/-- The canonical escaped candidate: the characters of
`stringifyObj3 t s c`. -/
def cand3 (t s : String) (cb : Bool) : List Char :=
  '{' :: '"' :: (("seoTitle").data ++ '"' :: ':' :: '"' ::
    (jsonEscape t.data ++ '"' :: ',' :: '"' :: (("specs").data ++ '"' :: ':' :: '"' ::
    (jsonEscape s.data ++ '"' :: ',' :: '"' :: (("confident").data ++ '"' :: ':' ::
    ((if cb then ("true") else ("false")).data ++ ['}']))))))

/-- The raw candidate: the characters of `rawSerialize3 t s c`. -/
def rawCand3 (t s : String) (cb : Bool) : List Char :=
  '{' :: '"' :: (("seoTitle").data ++ '"' :: ':' :: '"' ::
    (t.data ++ '"' :: ',' :: '"' :: (("specs").data ++ '"' :: ':' :: '"' ::
    (s.data ++ '"' :: ',' :: '"' :: (("confident").data ++ '"' :: ':' ::
    ((if cb then ("true") else ("false")).data ++ ['}']))))))

/-- The candidate interior: everything between its outer braces. -/
def mid3 (t s : String) (cb : Bool) : List Char :=
  '"' :: (("seoTitle").data ++ '"' :: ':' :: '"' ::
    (jsonEscape t.data ++ '"' :: ',' :: '"' :: (("specs").data ++ '"' :: ':' :: '"' ::
    (jsonEscape s.data ++ '"' :: ',' :: '"' :: (("confident").data ++ '"' :: ':' ::
    (if cb then ("true") else ("false")).data)))))

/-- The raw candidate interior: everything between its outer braces. -/
def rawMid3 (t s : String) (cb : Bool) : List Char :=
  '"' :: (("seoTitle").data ++ '"' :: ':' :: '"' ::
    (t.data ++ '"' :: ',' :: '"' :: (("specs").data ++ '"' :: ':' :: '"' ::
    (s.data ++ '"' :: ',' :: '"' :: (("confident").data ++ '"' :: ':' ::
    (if cb then ("true") else ("false")).data)))))


/-- Any sufficient fuel computes the same stripping. -/
theorem stripTicksJsonFuel_irrel :
    ∀ (n : Nat) (l : List Char), l.length < n → ∀ m, l.length < m →
      stripTicksJsonFuel n l = stripTicksJsonFuel m l := by
  intro n
  induction n with
  | zero => intro l hn; exact absurd hn (by omega)
  | succ n ih =>
    intro l hn m hm
    cases m with
    | zero => exact absurd hm (by omega)
    | succ m =>
      match l with
      | [] => rfl
      | c :: cs =>
        have hd := (List.dropWhile_sublist isJsWs (l := (c :: cs).drop 7)).length_le
        have hd7 : ((c :: cs).drop 7).length ≤ cs.length := by
          simp [List.length_drop]
        simp only [List.length_cons] at hn hm
        simp only [stripTicksJsonFuel]
        by_cases hf : isFenceJson (c :: cs)
        · simp only [if_pos hf]
          exact ih _ (by omega) m (by omega)
        · simp only [if_neg hf]
          rw [ih cs (by omega) m (by omega)]

/-- The recursion equation of the first fence-stripping pass. -/
theorem stripTicksJson_eq (l : List Char) :
    stripTicksJson l =
      match l with
      | [] => []
      | c :: cs =>
        if isFenceJson (c :: cs) then
          stripTicksJson (((c :: cs).drop 7).dropWhile isJsWs)
        else c :: stripTicksJson cs := by
  match l with
  | [] => rfl
  | c :: cs =>
    show stripTicksJsonFuel (cs.length + 2) (c :: cs) = _
    simp only [stripTicksJsonFuel]
    by_cases hf : isFenceJson (c :: cs)
    · simp only [if_pos hf]
      have hd := (List.dropWhile_sublist isJsWs (l := (c :: cs).drop 7)).length_le
      have hd7 : ((c :: cs).drop 7).length ≤ cs.length := by
        simp [List.length_drop]
      rw [stripTicksJsonFuel_irrel (cs.length + 1) _ (by omega)
        ((((c :: cs).drop 7).dropWhile isJsWs).length + 1) (by omega)]
      rfl
    · simp only [if_neg hf]
      rfl

/-- Any sufficient fuel computes the same stripping. -/
theorem stripTicksFuel_irrel :
    ∀ (n : Nat) (l : List Char), l.length < n → ∀ m, l.length < m →
      stripTicksFuel n l = stripTicksFuel m l := by
  intro n
  induction n with
  | zero => intro l hn; exact absurd hn (by omega)
  | succ n ih =>
    intro l hn m hm
    cases m with
    | zero => exact absurd hm (by omega)
    | succ m =>
      match l with
      | [] => rfl
      | c :: cs =>
        have hd := (List.dropWhile_sublist isJsWs (l := (c :: cs).drop 3)).length_le
        have hd3 : ((c :: cs).drop 3).length ≤ cs.length := by
          simp [List.length_drop]
        simp only [List.length_cons] at hn hm
        simp only [stripTicksFuel]
        by_cases hf : isFence (c :: cs)
        · simp only [if_pos hf]
          exact ih _ (by omega) m (by omega)
        · simp only [if_neg hf]
          rw [ih cs (by omega) m (by omega)]

/-- The recursion equation of the second fence-stripping pass. -/
theorem stripTicks_eq (l : List Char) :
    stripTicks l =
      match l with
      | [] => []
      | c :: cs =>
        if isFence (c :: cs) then
          stripTicks (((c :: cs).drop 3).dropWhile isJsWs)
        else c :: stripTicks cs := by
  match l with
  | [] => rfl
  | c :: cs =>
    show stripTicksFuel (cs.length + 2) (c :: cs) = _
    simp only [stripTicksFuel]
    by_cases hf : isFence (c :: cs)
    · simp only [if_pos hf]
      have hd := (List.dropWhile_sublist isJsWs (l := (c :: cs).drop 3)).length_le
      have hd3 : ((c :: cs).drop 3).length ≤ cs.length := by
        simp [List.length_drop]
      rw [stripTicksFuel_irrel (cs.length + 1) _ (by omega)
        ((((c :: cs).drop 3).dropWhile isJsWs).length + 1) (by omega)]
      rfl
    · simp only [if_neg hf]
      rfl

/-- Needed for the recursion of `repairQuoted`: a matched quoted span
consumes at least the closing quote. -/
theorem quotedSplit_length (l : List Char) :
    ∀ p, quotedSplit l = some p → p.2.length < l.length := by
  induction l using quotedSplit.induct with
  | case1 => intro p h; rw [quotedSplit.eq_def] at h; exact absurd h (by simp)
  | case2 r2 =>
    intro p h
    rw [quotedSplit.eq_def] at h
    simp at h
    subst h
    exact Nat.lt_succ_self r2.length
  | case3 h1 => intro p h; rw [quotedSplit.eq_def] at h; exact absurd h (by simp)
  | case4 e r2 he h1 => intro p h; rw [quotedSplit.eq_def] at h; simp [he] at h
  | case5 e r2 he h1 ih =>
    intro p h
    rw [quotedSplit.eq_def] at h
    cases hq : quotedSplit r2 with
    | none => simp [he, hq] at h
    | some q =>
      simp [he, hq] at h
      have := ih q hq
      subst h
      simp only [List.length_cons]
      omega
  | case6 e r2 he1 he2 ih =>
    intro p h
    rw [quotedSplit.eq_def] at h
    cases hq : quotedSplit r2 with
    | none => simp [he1, he2, hq] at h
    | some q =>
      simp [he1, he2, hq] at h
      have := ih q hq
      subst h
      simp only [List.length_cons]
      omega

/-- Any sufficient fuel computes the same repair. -/
theorem repairQuotedFuel_irrel :
    ∀ (n m : Nat) (l : List Char), l.length < n → l.length < m →
      repairQuotedFuel n l = repairQuotedFuel m l := by
  intro n
  induction n with
  | zero => intro m l hn; exact absurd hn (by omega)
  | succ n ih =>
    intro m l hn hm
    cases m with
    | zero => exact absurd hm (by omega)
    | succ m =>
      match l with
      | [] => rfl
      | c :: cs =>
        simp only [repairQuotedFuel]
        simp only [List.length_cons] at hn hm
        by_cases hc : c = '"'
        · simp only [if_pos hc]
          cases hq : quotedSplit cs with
          | none => rw [ih m cs (by omega) (by omega)]
          | some p =>
            have hlen := quotedSplit_length cs p hq
            simp only []
            rw [ih m p.2 (by omega) (by omega)]
        · simp only [if_neg hc]
          rw [ih m cs (by omega) (by omega)]

/-- The recursion equation of the repair scanner. -/
theorem repairQuoted_eq (l : List Char) :
    repairQuoted l =
      match l with
      | [] => []
      | c :: cs =>
        if c = '"' then
          match quotedSplit cs with
          | some p => '"' :: (escapeNl p.1 ++ '"' :: repairQuoted p.2)
          | none => '"' :: repairQuoted cs
        else c :: repairQuoted cs := by
  match l with
  | [] => rfl
  | c :: cs =>
    show repairQuotedFuel (cs.length + 2) (c :: cs) = _
    simp only [repairQuotedFuel]
    by_cases hc : c = '"'
    · simp only [if_pos hc]
      cases hq : quotedSplit cs with
      | none => rfl
      | some p =>
        have hlen := quotedSplit_length cs p hq
        simp only []
        rw [repairQuotedFuel_irrel (cs.length + 1) (p.2.length + 1) p.2 (by omega) (by omega)]
        rfl
    · simp only [if_neg hc]
      rfl

/-- Needed for the recursion of `parseStringBody`. -/
theorem strUnit_length (l : List Char) (p : List Char × List Char)
    (h : strUnit l = some p) : p.2.length < l.length := by
  match l with
  | [] => rw [strUnit.eq_def] at h; exact absurd h (by simp)
  | c :: r =>
    rw [strUnit.eq_def] at h
    simp only [] at h
    by_cases h1 : c = '"'
    · rw [if_pos h1] at h; exact absurd h (by simp)
    rw [if_neg h1] at h
    by_cases h2 : c = '\\'
    · rw [if_pos h2] at h
      match r with
      | [] => exact absurd h (by simp)
      | e :: r2 =>
        simp only [] at h
        split_ifs at h with e1 e2 e3 e4 e5 e6 e7 e8 e9
        · cases h; simp_arith
        · cases h; simp_arith
        · cases h; simp_arith
        · cases h; simp_arith
        · cases h; simp_arith
        · cases h; simp_arith
        · cases h; simp_arith
        · cases h; simp_arith
        · split at h
          · split at h
            · cases h; simp_arith
            · exact absurd h (by simp)
          · exact absurd h (by simp)
    · rw [if_neg h2] at h
      by_cases h3 : c.toNat < 32
      · rw [if_pos h3] at h; exact absurd h (by simp)
      · rw [if_neg h3] at h; cases h; simp_arith

/-- Any sufficient fuel scans the same string body. -/
theorem parseStringBodyFuel_irrel :
    ∀ (n : Nat) (l : List Char), l.length < n → ∀ m, l.length < m →
      parseStringBodyFuel n l = parseStringBodyFuel m l := by
  intro n
  induction n with
  | zero => intro l hn; exact absurd hn (by omega)
  | succ n ih =>
    intro l hn m hm
    cases m with
    | zero => exact absurd hm (by omega)
    | succ m =>
      simp only [parseStringBodyFuel]
      by_cases hq : l.head? = some '"'
      · simp only [if_pos hq]
      · simp only [if_neg hq]
        cases hu : strUnit l with
        | none => rfl
        | some p =>
          have := strUnit_length l p hu
          simp only []
          rw [ih p.2 (by omega) m (by omega)]

/-- The recursion equation of the JSON string-body scanner. -/
theorem parseStringBody_eq (l : List Char) :
    parseStringBody l =
      (if l.head? = some '"' then some ([], l.tail)
       else
         match strUnit l with
         | none => none
         | some p => (parseStringBody p.2).map (fun q => (p.1 ++ q.1, q.2))) := by
  show parseStringBodyFuel (l.length + 1) l = _
  simp only [parseStringBodyFuel]
  by_cases hq : l.head? = some '"'
  · simp only [if_pos hq]
  · simp only [if_neg hq]
    cases hu : strUnit l with
    | none => rfl
    | some p =>
      have := strUnit_length l p hu
      simp only []
      rw [parseStringBodyFuel_irrel l.length p.2 (by omega) (p.2.length + 1) (by omega)]
      rfl

/-- A matched string body consumes at least its closing quote. -/
theorem parseStringBody_length (l : List Char) :
    ∀ p, parseStringBody l = some p → p.2.length < l.length := by
  suffices h : ∀ (n : Nat) (l : List Char) p, parseStringBodyFuel n l = some p →
      p.2.length < l.length from h (l.length + 1) l
  intro n
  induction n with
  | zero => intro l p h; exact absurd h (by simp [parseStringBodyFuel])
  | succ n ih =>
    intro l p h
    simp only [parseStringBodyFuel] at h
    by_cases hq : l.head? = some '"'
    · rw [if_pos hq] at h
      simp at h
      match l, hq with
      | c :: t, hq =>
        subst h
        simp
    · rw [if_neg hq] at h
      cases hu : strUnit l with
      | none => rw [hu] at h; exact absurd h (by simp)
      | some u =>
        rw [hu] at h
        simp only [] at h
        cases hr : parseStringBodyFuel n u.2 with
        | none => rw [hr] at h; exact absurd h (by simp)
        | some q =>
          rw [hr] at h
          simp at h
          subst h
          have h1 := strUnit_length l u hu
          have h2 := ih u.2 q hr
          simp only []
          omega

/-- Matching a literal consumes its length. -/
theorem litRest_length (pat : List Char) :
    ∀ l r, litRest pat l = some r → r.length ≤ l.length := by
  induction pat with
  | nil =>
    intro l r h
    rw [litRest.eq_def] at h
    simp at h
    simp [h]
  | cons c p ih =>
    intro l r h
    match l with
    | [] => rw [litRest.eq_def] at h; exact absurd h (by simp)
    | d :: t =>
      rw [litRest.eq_def] at h
      simp only [] at h
      split_ifs at h with hd
      have := ih t r h
      simp only [List.length_cons]
      omega

/-- An integer literal never grows the remaining input. -/
theorem parseIntLit_length (l : List Char) (p : JScalar × List Char)
    (h : parseIntLit l = some p) : p.2.length ≤ l.length := by
  have htail : l.tail.length ≤ l.length := by cases l <;> simp
  have hdrop1 : (l.tail.dropWhile Char.isDigit).length ≤ l.tail.length :=
    (List.dropWhile_sublist _).length_le
  have hdrop2 : (l.dropWhile Char.isDigit).length ≤ l.length :=
    (List.dropWhile_sublist _).length_le
  unfold parseIntLit at h
  simp only [] at h
  split_ifs at h <;> (cases h; simp; omega)

/-- A scalar value never grows the remaining input. -/
theorem parseScalarValue_length (l : List Char) (p : JScalar × List Char)
    (h : parseScalarValue l = some p) : p.2.length ≤ l.length := by
  match l with
  | [] => rw [parseScalarValue.eq_def] at h; exact absurd h (by simp)
  | c :: r =>
    rw [parseScalarValue.eq_def] at h
    simp only [] at h
    split_ifs at h with h1 h2 h3 h4 h5
    · cases hb : parseStringBody r with
      | none => rw [hb] at h; exact absurd h (by simp)
      | some q =>
        rw [hb] at h
        simp at h
        have := parseStringBody_length r q hb
        cases h
        simp only [List.length_cons]
        omega
    · cases hb : litRest (("rue").data) r with
      | none => rw [hb] at h; exact absurd h (by simp)
      | some q =>
        rw [hb] at h
        simp at h
        have := litRest_length _ _ _ hb
        cases h
        simp only [List.length_cons]
        omega
    · cases hb : litRest (("alse").data) r with
      | none => rw [hb] at h; exact absurd h (by simp)
      | some q =>
        rw [hb] at h
        simp at h
        have := litRest_length _ _ _ hb
        cases h
        simp only [List.length_cons]
        omega
    · cases hb : litRest (("ull").data) r with
      | none => rw [hb] at h; exact absurd h (by simp)
      | some q =>
        rw [hb] at h
        simp at h
        have := litRest_length _ _ _ hb
        cases h
        simp only [List.length_cons]
        omega
    · exact parseIntLit_length _ _ h

/-- Expecting a character consumes it. -/
theorem expectChar_length (c : Char) (l r : List Char) (h : expectChar c l = some r) :
    r.length < l.length := by
  match l with
  | [] => rw [expectChar.eq_def] at h; exact absurd h (by simp)
  | d :: t =>
    rw [expectChar.eq_def] at h
    simp only [] at h
    split_ifs at h
    cases h
    exact Nat.lt_succ_self _

/-- A member consumes at least its key quotes and colon. -/
theorem parseMember_length (l : List Char) (p : (String × JScalar) × List Char)
    (h : parseMember l = some p) : p.2.length < l.length := by
  unfold parseMember at h
  have hw0 : (l.dropWhile isJsonWs).length ≤ l.length := (List.dropWhile_sublist _).length_le
  cases h1 : expectChar '"' (l.dropWhile isJsonWs) with
  | none => rw [h1] at h; exact absurd h (by simp)
  | some l2 =>
    rw [h1] at h
    simp only [] at h
    have e1 := expectChar_length _ _ _ h1
    cases h2 : parseStringBody l2 with
    | none => rw [h2] at h; exact absurd h (by simp)
    | some kp =>
      rw [h2] at h
      simp only [] at h
      have e2 := parseStringBody_length _ _ h2
      match kp, h2 with
      | (key, l3), h2 =>
        simp only [] at h
        have hw3 : (l3.dropWhile isJsonWs).length ≤ l3.length := (List.dropWhile_sublist _).length_le
        cases h3 : expectChar ':' (l3.dropWhile isJsonWs) with
        | none => rw [h3] at h; exact absurd h (by simp)
        | some l5 =>
          rw [h3] at h
          simp only [] at h
          have e3 := expectChar_length _ _ _ h3
          have hw5 : (l5.dropWhile isJsonWs).length ≤ l5.length := (List.dropWhile_sublist _).length_le
          cases h4 : parseScalarValue (l5.dropWhile isJsonWs) with
          | none => rw [h4] at h; exact absurd h (by simp)
          | some vp =>
            rw [h4] at h
            simp only [] at h
            have e4 := parseScalarValue_length _ _ h4
            match vp, h4 with
            | (v, l7), h4 =>
              simp only [] at h
              cases h
              have hw7 : (l7.dropWhile isJsonWs).length ≤ l7.length :=
                (List.dropWhile_sublist _).length_le
              simp only [] at e2 e4
              show (List.dropWhile isJsonWs l7).length < l.length
              omega

/-- Any sufficient fuel scans the same members. -/
theorem parseMembersAuxFuel_irrel :
    ∀ (n : Nat) (l : List Char), l.length < n → ∀ m, l.length < m →
      parseMembersAuxFuel n l = parseMembersAuxFuel m l := by
  intro n
  induction n with
  | zero => intro l hn; exact absurd hn (by omega)
  | succ n ih =>
    intro l hn m hm
    cases m with
    | zero => exact absurd hm (by omega)
    | succ m =>
      simp only [parseMembersAuxFuel]
      cases hp : parseMember l with
      | none => rfl
      | some p =>
        have hlen := parseMember_length l p hp
        have htail : p.2.tail.length ≤ p.2.length := by cases p.2 <;> simp
        simp only []
        by_cases hc : p.2.head? = some ','
        · simp only [if_pos hc]
          rw [ih p.2.tail (by omega) m (by omega)]
        · simp only [if_neg hc]

/-- The recursion equation of the member scanner. -/
theorem parseMembersAux_eq (l : List Char) :
    parseMembersAux l =
      (match parseMember l with
       | none => none
       | some p =>
         if p.2.head? = some ',' then
           (parseMembersAux p.2.tail).map (fun q => (p.1 :: q.1, q.2))
         else if p.2.head? = some '}' then some ([p.1], p.2.tail)
         else none) := by
  show parseMembersAuxFuel (l.length + 1) l = _
  simp only [parseMembersAuxFuel]
  cases hp : parseMember l with
  | none => rfl
  | some p =>
    have hlen := parseMember_length l p hp
    have htail : p.2.tail.length ≤ p.2.length := by cases p.2 <;> simp
    simp only []
    by_cases hc : p.2.head? = some ','
    · simp only [if_pos hc]
      rw [parseMembersAuxFuel_irrel l.length p.2.tail (by omega) (p.2.tail.length + 1) (by omega)]
      rfl
    · simp only [if_neg hc]

/-! ## Claims about the signer -/

/-- Claim C1: for every input and fixed timestamp, the Signature emitted by
`signAwsRequest` (the final component of its Authorization header) equals
the lowercase-hex encoding of HMAC-SHA256(kSigning, stringToSign), where
kSigning is derived by the four chained HMAC applications
kDate = HMAC("AWS4" ++ secretKey, dateStamp), kRegion = HMAC(kDate, region),
kService = HMAC(kRegion, service), kSigning = HMAC(kService,
"aws4_request"), each keyed with the previous step's raw bytes. -/
theorem claim_C1 (C : Crypto) (method url body accessKey secretKey region service nowISO : String) :
    headerGet ("Authorization")
        (signAwsRequest C method url body accessKey secretKey region service nowISO) =
      some (authHeaderPrefix accessKey region service nowISO ++
        toHex
          (C.hmacSha256
            (C.hmacSha256
              (C.hmacSha256
                (C.hmacSha256
                  (C.hmacSha256 (strBytes ("AWS4" ++ secretKey)) (dateStampOf nowISO))
                  region)
                service)
              ("aws4_request"))
            (stringToSignOf C method url body region service nowISO))) := rfl

set_option maxHeartbeats 1000000 in
/-- Claim C8, counterexample: at a concrete input the header record
returned by `signAwsRequest` has three entries, one of them a Content-Type
header — the claim says exactly two entries and no content-type. -/
theorem claim_C8_counterexample :
    (signAwsRequest cryptoStub ("POST") ("https://h/p") ("b") ("ak") ("sk") ("r") ("sv")
        ("2015-08-30T12:36:00.000Z")).length = 3 ∧
    headerGet ("Content-Type")
        (signAwsRequest cryptoStub ("POST") ("https://h/p") ("b") ("ak") ("sk") ("r") ("sv")
          ("2015-08-30T12:36:00.000Z")) = some ("application/json") := by
  exact ⟨rfl, rfl⟩


/-- Claim C8, amended: the header record returned by `signAwsRequest`
contains exactly three entries — Content-Type (set to `application/json`
by the function itself, matching the value baked into the canonical
request), the date header, and the Authorization header. -/
theorem claim_C8_amended (C : Crypto)
    (method url body accessKey secretKey region service nowISO : String) :
    signAwsRequest C method url body accessKey secretKey region service nowISO =
      [("Content-Type", "application/json"),
       ("X-Amz-Date", amzDateOf nowISO),
       ("Authorization",
         authorizationHeaderOf C method url body accessKey secretKey region service nowISO)] ∧
    (signAwsRequest C method url body accessKey secretKey region service nowISO).length = 3 := by
  exact ⟨rfl, rfl⟩

/-- Claim C9: two calls at the same timestamp differing only in the body
agree on the date header and the Content-Type header, and their
Authorization headers share the body-independent part — the algorithm
literal, the Credential (access key and credential scope) and the
SignedHeaders list — differing at most in the Signature value. -/
theorem claim_C9 (C : Crypto)
    (method url body1 body2 accessKey secretKey region service nowISO : String) :
    headerGet ("X-Amz-Date")
        (signAwsRequest C method url body1 accessKey secretKey region service nowISO) =
      headerGet ("X-Amz-Date")
        (signAwsRequest C method url body2 accessKey secretKey region service nowISO) ∧
    headerGet ("Content-Type")
        (signAwsRequest C method url body1 accessKey secretKey region service nowISO) =
      headerGet ("Content-Type")
        (signAwsRequest C method url body2 accessKey secretKey region service nowISO) ∧
    headerGet ("Authorization")
        (signAwsRequest C method url body1 accessKey secretKey region service nowISO) =
      some (authHeaderPrefix accessKey region service nowISO ++
        signatureOf C method url body1 secretKey region service nowISO) ∧
    headerGet ("Authorization")
        (signAwsRequest C method url body2 accessKey secretKey region service nowISO) =
      some (authHeaderPrefix accessKey region service nowISO ++
        signatureOf C method url body2 secretKey region service nowISO) := by
  refine ⟨?_, ?_, ?_, ?_⟩ <;>
    simp [headerGet, signAwsRequest, authorizationHeaderOf, List.find?]

/-- Claim C10: the duplicated definitions are extensionally equal — the
`signAwsRequest` of `format-pricelist/index.ts` and the one transcribed
from `unnamed/part_001` return identical header records on every input and
fixed timestamp, and the two `parseAIResponse` copies return identical
results on every input text. -/
theorem claim_C10 :
    (∀ (C : Crypto) (method url body accessKey secretKey region service nowISO : String),
      signAwsRequest C method url body accessKey secretKey region service nowISO =
        signAwsRequestP1 C method url body accessKey secretKey region service nowISO) ∧
    (∀ text : String, parseAIResponse text = parseAIResponseP1 text) := by
  exact ⟨fun _ _ _ _ _ _ _ _ _ => rfl, fun _ => rfl⟩


/-! ## Supporting lemmas for the URL model -/

/-- A literal matches its own prepension. -/
theorem litRest_append_self (p : List Char) : ∀ l, litRest p (p ++ l) = some l := by
  induction p with
  | nil => intro l; rfl
  | cons c ps ih =>
    intro l
    rw [List.cons_append, litRest.eq_def]
    simp [ih]

/-- Searching for a pattern headed by a character absent from a prefix of
the text skips that prefix. -/
theorem afterSub_append (c0 : Char) (ps : List Char) :
    ∀ (a b : List Char), (∀ c ∈ a, c ≠ c0) →
      afterSub (c0 :: ps) (a ++ b) = afterSub (c0 :: ps) b := by
  intro a
  induction a with
  | nil => intro b _; rfl
  | cons c a' ih =>
    intro b ha
    have hc : c ≠ c0 := ha c (by simp)
    have hl : litRest (c0 :: ps) (c :: (a' ++ b)) = none := by
      rw [litRest.eq_def]
      simp [hc]
    rw [List.cons_append, afterSub.eq_def]
    simp only []
    rw [hl]
    simp only []
    exact ih b (fun d hd => ha d (by simp [hd]))

/-- Searching for a pattern finds it at the very front. -/
theorem afterSub_self (c : Char) (ps l : List Char) :
    afterSub (c :: ps) ((c :: ps) ++ l) = some l := by
  have hlit : litRest (c :: ps) (c :: (ps ++ l)) = some l := by
    have := litRest_append_self (c :: ps) l
    simpa using this
  rw [List.cons_append, afterSub.eq_def]
  simp only []
  rw [hlit]

/-- `takeWhile` over a prepension every character of which satisfies the
predicate. -/
theorem takeWhile_append_all (p : Char → Bool) :
    ∀ (a b : List Char), (∀ c ∈ a, p c = true) →
      (a ++ b).takeWhile p = a ++ b.takeWhile p := by
  intro a
  induction a with
  | nil => intro b _; rfl
  | cons c a' ih =>
    intro b ha
    have hc : p c = true := ha c (by simp)
    simp [List.takeWhile_cons, hc, ih b (fun d hd => ha d (by simp [hd]))]

/-- `dropWhile` over a prepension every character of which satisfies the
predicate. -/
theorem dropWhile_append_all (p : Char → Bool) :
    ∀ (a b : List Char), (∀ c ∈ a, p c = true) →
      (a ++ b).dropWhile p = b.dropWhile p := by
  intro a
  induction a with
  | nil => intro b _; rfl
  | cons c a' ih =>
    intro b ha
    have hc : p c = true := ha c (by simp)
    simp [List.dropWhile_cons, hc, ih b (fun d hd => ha d (by simp [hd]))]

/-- Claim C2: `signAwsRequest` hashes exactly the canonical request formed
as the ordered concatenation, each field newline-terminated except between
the last two, of the method, the URL's path (query string excluded), an
empty query-string line, the canonical headers block (content-type, host,
x-amz-date, each as lowercase `name:value` plus newline), the signed-header
list `content-type;host;x-amz-date`, and the hex SHA-256 of the body; the
stringToSign it signs is the newline-joined algorithm literal, timestamp,
credential scope `dateStamp/region/service/aws4_request`, and hex SHA-256
of that canonical request; the Authorization header it emits signs exactly
that stringToSign; and on a well-formed URL the path excludes the query
string. -/
theorem claim_C2 :
    (∀ (C : Crypto) (method url body nowISO : String),
      canonicalRequestOf C method url body nowISO =
        method ++ "\n" ++ urlPathname url ++ "\n" ++ "\n" ++
          ("content-type:application/json\n" ++ "host:" ++ urlHost url ++ "\n" ++
            "x-amz-date:" ++ amzDateOf nowISO ++ "\n") ++ "\n" ++
          "content-type;host;x-amz-date" ++ "\n" ++ sha256 C body) ∧
    (∀ (C : Crypto) (method url body region service nowISO : String),
      stringToSignOf C method url body region service nowISO =
        "AWS4-HMAC-SHA256" ++ "\n" ++ amzDateOf nowISO ++ "\n" ++
          (dateStampOf nowISO ++ "/" ++ region ++ "/" ++ service ++ "/aws4_request") ++ "\n" ++
          sha256 C (canonicalRequestOf C method url body nowISO)) ∧
    (∀ (C : Crypto) (method url body accessKey secretKey region service nowISO : String),
      headerGet ("Authorization")
          (signAwsRequest C method url body accessKey secretKey region service nowISO) =
        some (authHeaderPrefix accessKey region service nowISO ++
          toHex (C.hmacSha256 (getSignatureKey C secretKey (dateStampOf nowISO) region service)
            (stringToSignOf C method url body region service nowISO)))) ∧
    (∀ scheme hostS pathS queryS : String,
      (∀ c ∈ scheme.data, c ≠ ':') →
      (∀ c ∈ hostS.data, hostChar c = true) →
      (∀ c ∈ pathS.data, c ≠ '?' ∧ c ≠ '#') →
      urlHost (scheme ++ "://" ++ hostS ++ "/" ++ pathS ++ "?" ++ queryS) = hostS ∧
      urlPathname (scheme ++ "://" ++ hostS ++ "/" ++ pathS ++ "?" ++ queryS) =
        "/" ++ pathS) := by
  refine ⟨?_, ?_, ?_, ?_⟩
  · intro C method url body nowISO
    have hem : ("" : String).data = [] := rfl
    apply String.ext
    simp [canonicalRequestOf, joinNl, canonicalHeadersOf, signedHeadersConst, hem,
      String.data_append, List.append_assoc]
  · intro C method url body region service nowISO
    apply String.ext
    simp [stringToSignOf, joinNl, credentialScopeOf, algorithmConst,
      String.data_append, List.append_assoc]
  · intro C method url body accessKey secretKey region service nowISO
    rfl
  · intro scheme hostS pathS queryS hs hh hp
    have hdata : (scheme ++ "://" ++ hostS ++ "/" ++ pathS ++ "?" ++ queryS).data =
        scheme.data ++ ([':', '/', '/'] ++ (hostS.data ++ ('/' ::
          (pathS.data ++ '?' :: queryS.data)))) := by
      simp [String.data_append, List.append_assoc]
    have htail : urlTail (scheme ++ "://" ++ hostS ++ "/" ++ pathS ++ "?" ++ queryS) =
        hostS.data ++ '/' :: (pathS.data ++ '?' :: queryS.data) := by
      unfold urlTail
      rw [hdata]
      rw [show (("://").data) = [':', '/', '/'] from rfl]
      rw [afterSub_append ':' ['/', '/'] scheme.data _ hs]
      rw [show ([':', '/', '/'] ++ (hostS.data ++ ('/' :: (pathS.data ++ '?' :: queryS.data)))
          : List Char) =
        (':' :: ['/', '/']) ++ (hostS.data ++ ('/' :: (pathS.data ++ '?' :: queryS.data)))
          from rfl]
      rw [afterSub_self ':' ['/', '/']]
      rfl
    constructor
    · unfold urlHost
      rw [htail]
      rw [takeWhile_append_all hostChar hostS.data _ hh]
      rw [show (('/' :: (pathS.data ++ '?' :: queryS.data)).takeWhile hostChar) = [] from by
        simp [List.takeWhile_cons, hostChar]]
      rw [List.append_nil]
    · unfold urlPathname
      rw [htail]
      rw [dropWhile_append_all hostChar hostS.data _ hh]
      rw [show (('/' :: (pathS.data ++ '?' :: queryS.data)).dropWhile hostChar) =
          '/' :: (pathS.data ++ '?' :: queryS.data) from by
        simp [List.dropWhile_cons, hostChar]]
      simp only []
      have h2 : (('/' :: (pathS.data ++ '?' :: queryS.data)).takeWhile
          (fun c => c ≠ '?' && c ≠ '#')) = '/' :: pathS.data := by
        rw [List.takeWhile_cons,
          if_pos (show ((fun c => c ≠ '?' && c ≠ '#') '/') = true from by decide)]
        rw [takeWhile_append_all (fun c => c ≠ '?' && c ≠ '#') pathS.data _ (by
          intro c hc
          simp [(hp c hc).1, (hp c hc).2])]
        rw [List.takeWhile_cons,
          if_neg (show ¬ (((fun c => c ≠ '?' && c ≠ '#') '?') = true) from by decide)]
        rw [List.append_nil]
      rw [h2]
      apply String.ext
      rw [String.data_append]
      rfl

/-- Witness for claim C2 at a concrete well-formed URL. -/
theorem claim_C2_witness :
    urlHost ("https" ++ "://" ++ "h.example.com:443" ++ "/" ++ "model/x/invoke" ++ "?" ++ "a=b")
        = "h.example.com:443" ∧
    urlPathname ("https" ++ "://" ++ "h.example.com:443" ++ "/" ++ "model/x/invoke" ++ "?" ++ "a=b")
        = "/" ++ "model/x/invoke" := by
  exact claim_C2.2.2.2 ("https") ("h.example.com:443") ("model/x/invoke") ("a=b")
    (by decide) (by decide) (by decide)

/-! ## Claims about the recovery parser: concrete behaviour -/

set_option maxHeartbeats 1000000 in
/-- Claim C3, counterexample: on the input consisting of a valid flat
object with a `specs` field but no `seoTitle` field, neither path yields an
object containing `seoTitle`, yet `parseAIResponse` returns that object
instead of failing with the recovery error. -/
theorem claim_C3_counterexample :
    parseAIResponse ("\x7b\"specs\": \"x\"\x7d") = .ok [("specs", JScalar.str ("x"))] ∧
    objGet [("specs", JScalar.str ("x"))] ("seoTitle") = none := by
  exact ⟨by decide, by decide⟩

set_option maxHeartbeats 1000000 in
/-- Claim C4, counterexample: on the truncated input
`\x7b"seoTitle": "Dell X: i5, 8GB", "specs": "Line1\n Line2` (escaped `\n`,
no closing quote or brace), the returned `specs` value converts the `\n`
escape to a literal newline, so it does not contain the space-collapsed
content `Line1 Line2` the claim asserts. -/
theorem claim_C4_counterexample :
    parseAIResponse ("\x7b\"seoTitle\": \"Dell X: i5, 8GB\", \"specs\": \"Line1\\nLine2") =
      .ok [("seoTitle", JScalar.str ("Dell X: i5, 8GB")),
           ("specs", JScalar.str ("Line1\nLine2")),
           ("confident", JScalar.bool false)] ∧
    beforeSub (("Line1 Line2").data) (("Line1\nLine2").data) = none := by
  exact ⟨by decide, by decide⟩

set_option maxHeartbeats 1000000 in
/-- Claim C4, amended: on that truncated input `parseAIResponse` does not
fail; it returns `seoTitle = "Dell X: i5, 8GB"` and `confident = false` as
claimed, but the `specs` value has the `\n` escape converted to a literal
newline (`Line1`, newline, `Line2`) — the collapse of `\n` escapes to a
single space applies only to the `seoTitle` field. -/
theorem claim_C4_amended :
    parseAIResponse ("\x7b\"seoTitle\": \"Dell X: i5, 8GB\", \"specs\": \"Line1\\nLine2") =
      .ok [("seoTitle", JScalar.str ("Dell X: i5, 8GB")),
           ("specs", JScalar.str ("Line1" ++ "\n" ++ "Line2")),
           ("confident", JScalar.bool false)] := by
  decide

set_option maxHeartbeats 1000000 in
/-- Claim C5, counterexample: on a strictly valid input whose object lacks
the `confident` field, the strict path succeeds and the returned object
simply has no `confident` field at all — it is not defaulted to `true`. -/
theorem claim_C5_counterexample :
    parseAIResponse ("\x7b\"seoTitle\":\"a\",\"specs\":\"b\"\x7d") =
      .ok [("seoTitle", JScalar.str ("a")), ("specs", JScalar.str ("b"))] ∧
    objGet [("seoTitle", JScalar.str ("a")), ("specs", JScalar.str ("b"))] ("confident") =
      none := by
  exact ⟨by decide, by decide⟩

/-! ## Supporting lemmas: stripping only removes characters -/

/-- The first stripping pass introduces no characters. -/
theorem mem_stripTicksJsonFuel :
    ∀ (n : Nat) (l : List Char) (c : Char), c ∈ stripTicksJsonFuel n l → c ∈ l := by
  intro n
  induction n with
  | zero => intro l c h; exact absurd h (by simp [stripTicksJsonFuel])
  | succ n ih =>
    intro l c h
    match l with
    | [] => exact absurd h (by simp [stripTicksJsonFuel])
    | d :: cs =>
      simp only [stripTicksJsonFuel] at h
      by_cases hf : isFenceJson (d :: cs)
      · rw [if_pos hf] at h
        have h1 := ih _ c h
        have h2 := (List.dropWhile_sublist isJsWs (l := (d :: cs).drop 7)).subset h1
        exact (List.drop_sublist 7 (d :: cs)).subset h2
      · rw [if_neg hf] at h
        rcases List.mem_cons.mp h with h | h
        · exact List.mem_cons.mpr (Or.inl h)
        · exact List.mem_cons.mpr (Or.inr (ih _ c h))

/-- The second stripping pass introduces no characters. -/
theorem mem_stripTicksFuel :
    ∀ (n : Nat) (l : List Char) (c : Char), c ∈ stripTicksFuel n l → c ∈ l := by
  intro n
  induction n with
  | zero => intro l c h; exact absurd h (by simp [stripTicksFuel])
  | succ n ih =>
    intro l c h
    match l with
    | [] => exact absurd h (by simp [stripTicksFuel])
    | d :: cs =>
      simp only [stripTicksFuel] at h
      by_cases hf : isFence (d :: cs)
      · rw [if_pos hf] at h
        have h1 := ih _ c h
        have h2 := (List.dropWhile_sublist isJsWs (l := (d :: cs).drop 3)).subset h1
        exact (List.drop_sublist 3 (d :: cs)).subset h2
      · rw [if_neg hf] at h
        rcases List.mem_cons.mp h with h | h
        · exact List.mem_cons.mpr (Or.inl h)
        · exact List.mem_cons.mpr (Or.inr (ih _ c h))

/-- Trimming introduces no characters. -/
theorem mem_jsTrimList (l : List Char) (c : Char) (h : c ∈ jsTrimList l) : c ∈ l := by
  unfold jsTrimList at h
  rw [List.mem_reverse] at h
  have h1 := (List.dropWhile_sublist isJsWs (l := (l.dropWhile isJsWs).reverse)).subset h
  rw [List.mem_reverse] at h1
  exact (List.dropWhile_sublist isJsWs (l := l)).subset h1

/-- The whole input normalisation introduces no characters. -/
theorem mem_stripText (text : String) (c : Char) (h : c ∈ stripText text) : c ∈ text.data := by
  unfold stripText at h
  exact mem_stripTicksJsonFuel _ _ c (mem_stripTicksFuel _ _ c (mem_jsTrimList _ c h))

/-- Claim C3, amended: when the strict path yields no parsed object at all
and the manual fallback locates no `seoTitle`, `parseAIResponse` fails with
the recovery error; in particular, any input containing no opening brace
fails with the recovery error. -/
theorem claim_C3 :
    (∀ text : String, strictPath (stripText text) = none →
      fallbackPath (stripText text) = none →
      parseAIResponse text = .error ("Could not parse AI response")) ∧
    (∀ text : String, (∀ c ∈ text.data, c ≠ '{') →
      parseAIResponse text = .error ("Could not parse AI response")) := by
  constructor
  · intro text h1 h2
    simp [parseAIResponse, h1, h2]
  · intro text hbr
    have hmem : ∀ c ∈ stripText text, c ≠ '{' := fun c hc => hbr c (mem_stripText text c hc)
    have hjm : jsonMatch (stripText text) = none := by
      have hdw : (stripText text).dropWhile (fun c => c ≠ '{') = [] :=
        List.dropWhile_eq_nil_iff.mpr (fun x hx => by simp [hmem x hx])
      unfold jsonMatch
      rw [hdw]
    have hsp : strictPath (stripText text) = none := by simp [strictPath, hjm]
    have hfb : fallbackPath (stripText text) = none := by
      have hh : ¬ (stripText text).head? = some '{' := by
        cases hst : stripText text with
        | nil => simp
        | cons a t =>
          simp only [List.head?_cons]
          intro hcon
          have ha : a ∈ stripText text := by rw [hst]; exact List.mem_cons_self a t
          exact hmem a ha (by simpa using hcon)
      simp [fallbackPath, hh]
    simp [parseAIResponse, hsp, hfb]

set_option maxHeartbeats 400000 in
/-- Witness for claim C3 at concrete inputs: prose without any brace. -/
theorem claim_C3_witness :
    parseAIResponse ("the model replied in plain prose") =
      .error ("Could not parse AI response") ∧
    parseAIResponse ("no json here.") = .error ("Could not parse AI response") := by
  exact ⟨claim_C3.1 _ (by decide) (by decide), claim_C3.2 _ (by decide)⟩

/-- Updating one key leaves the lookup of any other key unchanged. -/
theorem objGet_objSet_ne (fields : JObject) (k k' : String) (v : JScalar) (h : k ≠ k') :
    objGet (objSet fields k v) k' = objGet fields k' := by
  induction fields with
  | nil => rfl
  | cons p rest ih =>
    simp only [objSet] at ih
    simp only [objSet, List.map_cons]
    rw [objGet.eq_def]
    conv_rhs => rw [objGet.eq_def]
    simp only []
    rw [ih]
    cases objGet rest k' with
    | some v2 => rfl
    | none =>
      by_cases hp : p.1 = k
      · have hne : p.1 ≠ k' := by rw [hp]; exact h
        simp [hp, hne, h]
      · simp [hp]

/-- Claim C5, amended: whenever the strict parse path succeeds (a brace
span was extracted, the repaired candidate parsed, and the post-processing
step returned), `parseAIResponse` returns the post-processed object, whose
`confident` field equals the one of the parsed JSON — the value provided
when present, and absent (not defaulted to true) when the parsed JSON has
none. -/
theorem claim_C5 :
    ∀ (text : String) (cand : List Char) (fields v' : JObject),
      jsonMatch (stripText text) = some cand →
      jsonParseFlat (repairQuoted cand) = some fields →
      strictPost fields = some v' →
      parseAIResponse text = .ok v' ∧
      objGet v' ("confident") = objGet fields ("confident") := by
  intro text cand fields v' hjm hjp hsp
  constructor
  · simp [parseAIResponse, strictPath, hjm, hjp, hsp]
  · unfold strictPost at hsp
    cases hg : objGet fields ("specs") with
    | none => rw [hg] at hsp; simp at hsp; subst hsp; rfl
    | some sv =>
      rw [hg] at hsp
      simp only [] at hsp
      by_cases ht : jTruthy sv
      · rw [if_pos ht] at hsp
        match sv, ht, hsp with
        | .str s, ht, hsp =>
          simp at hsp
          subst hsp
          exact objGet_objSet_ne fields ("specs") ("confident") _ (by decide)
      · rw [if_neg ht] at hsp
        simp at hsp
        subst hsp
        rfl

set_option maxHeartbeats 1000000 in
/-- Witness for claim C5 at a concrete strict-path input carrying an
explicit `confident` value. -/
theorem claim_C5_witness :
    parseAIResponse ("\x7b\"seoTitle\":\"a\",\"specs\":\"b\",\"confident\":false\x7d") =
      .ok [("seoTitle", JScalar.str ("a")), ("specs", JScalar.str ("b")),
           ("confident", JScalar.bool false)] ∧
    objGet [("seoTitle", JScalar.str ("a")), ("specs", JScalar.str ("b")),
            ("confident", JScalar.bool false)] ("confident") =
      objGet [("seoTitle", JScalar.str ("a")), ("specs", JScalar.str ("b")),
              ("confident", JScalar.bool false)] ("confident") := by
  exact claim_C5 ("\x7b\"seoTitle\":\"a\",\"specs\":\"b\",\"confident\":false\x7d")
    (("\x7b\"seoTitle\":\"a\",\"specs\":\"b\",\"confident\":false\x7d").data)
    [("seoTitle", JScalar.str ("a")), ("specs", JScalar.str ("b")),
     ("confident", JScalar.bool false)]
    [("seoTitle", JScalar.str ("a")), ("specs", JScalar.str ("b")),
     ("confident", JScalar.bool false)]
    (by decide) (by decide) (by decide)

/-! ## Supporting lemmas for the symbolic recovery claims -/

/-- A matched quoted span reassembles to the original text. -/
theorem quotedSplit_recover (l : List Char) :
    ∀ p, quotedSplit l = some p → l = p.1 ++ '"' :: p.2 := by
  induction l using quotedSplit.induct with
  | case1 => intro p h; rw [quotedSplit.eq_def] at h; exact absurd h (by simp)
  | case2 r2 =>
    intro p h
    rw [quotedSplit.eq_def] at h
    simp at h
    subst h
    rfl
  | case3 h1 => intro p h; rw [quotedSplit.eq_def] at h; exact absurd h (by simp)
  | case4 e r2 he h1 => intro p h; rw [quotedSplit.eq_def] at h; simp [he] at h
  | case5 e r2 he h1 ih =>
    intro p h
    rw [quotedSplit.eq_def] at h
    cases hq : quotedSplit r2 with
    | none => simp [he, hq] at h
    | some q =>
      simp [he, hq] at h
      have := ih q hq
      subst h
      simp [this]
  | case6 e r2 he1 he2 ih =>
    intro p h
    rw [quotedSplit.eq_def] at h
    cases hq : quotedSplit r2 with
    | none => simp [he1, he2, hq] at h
    | some q =>
      simp [he1, he2, hq] at h
      have := ih q hq
      subst h
      simp [this]

/-- A span without quotes or backslashes is matched whole up to its
closing quote. -/
theorem quotedSplit_clean (content : List Char)
    (hc : ∀ c ∈ content, c ≠ '"' ∧ c ≠ '\\') :
    ∀ rest, quotedSplit (content ++ '"' :: rest) = some (content, rest) := by
  induction content with
  | nil => intro rest; rw [quotedSplit.eq_def]; simp
  | cons c content ih =>
    intro rest
    have h1 := (hc c (by simp)).1
    have h2 := (hc c (by simp)).2
    rw [List.cons_append, quotedSplit.eq_def]
    simp only [if_neg h1, if_neg h2]
    rw [ih (fun d hd => hc d (by simp [hd])) rest]
    rfl

/-- Escaped text contains no raw newline and no carriage return. -/
theorem mem_jsonEscape (d : List Char) (hd : ∀ c ∈ d, strChar c) :
    ∀ c ∈ jsonEscape d, (c ∈ d ∨ c = '\\' ∨ c = 'n') ∧ c ≠ '\n' ∧ c ≠ '\r' := by
  induction d with
  | nil => intro c hc; exact absurd hc (by simp [jsonEscape])
  | cons a d ih =>
    intro c hc
    simp only [jsonEscape, jsonEscapeChar] at hc
    have ha := hd a (by simp)
    by_cases han : a = '\n'
    · rw [if_pos han] at hc
      rcases List.mem_append.mp hc with h | h
      · simp at h
        rcases h with h | h
        · subst h; exact ⟨Or.inr (Or.inl rfl), by decide, by decide⟩
        · subst h; exact ⟨Or.inr (Or.inr rfl), by decide, by decide⟩
      · have := ih (fun x hx => hd x (by simp [hx])) c h
        exact ⟨by tauto, this.2⟩
    · rw [if_neg han] at hc
      rcases List.mem_append.mp hc with h | h
      · simp at h
        subst h
        refine ⟨Or.inl (by simp), ?_, ?_⟩
        · exact han
        · intro hr
          subst hr
          rcases ha.2.2 with h32 | hnl
          · exact absurd h32 (by decide)
          · exact han hnl
      · have := ih (fun x hx => hd x (by simp [hx])) c h
        exact ⟨by tauto, this.2⟩

/-- Escaped text also keeps clear of quotes, backslash-escapes aside. -/
theorem quotedSplit_escape (d : List Char) (hd : ∀ c ∈ d, strChar c) :
    ∀ rest, quotedSplit (jsonEscape d ++ '"' :: rest) = some (jsonEscape d, rest) := by
  induction d with
  | nil => intro rest; rw [quotedSplit.eq_def]; simp [jsonEscape]
  | cons a d ih =>
    intro rest
    have ha := hd a (by simp)
    simp only [jsonEscape, jsonEscapeChar]
    by_cases han : a = '\n'
    · rw [if_pos han]
      rw [show (['\\', 'n'] ++ jsonEscape d) ++ '"' :: rest =
        '\\' :: 'n' :: (jsonEscape d ++ '"' :: rest) from by simp]
      rw [quotedSplit.eq_def]
      simp only []
      rw [ih (fun x hx => hd x (by simp [hx])) rest]
      simp
    · rw [if_neg han]
      rw [show ([a] ++ jsonEscape d) ++ '"' :: rest = a :: (jsonEscape d ++ '"' :: rest)
        from by simp]
      rw [quotedSplit.eq_def]
      simp only [if_neg ha.1, if_neg ha.2.1]
      rw [ih (fun x hx => hd x (by simp [hx])) rest]
      rfl


/-- Replacement of an absent character changes nothing. -/
theorem replaceChar_id (x : Char) (r : List Char) :
    ∀ l, (∀ c ∈ l, c ≠ x) → replaceChar x r l = l := by
  intro l
  induction l with
  | nil => intro _; rfl
  | cons c cs ih =>
    intro h
    simp only [replaceChar, if_neg (h c (by simp))]
    rw [ih (fun d hd => h d (by simp [hd]))]

/-- Character replacement distributes over concatenation. -/
theorem replaceChar_append (x : Char) (r : List Char) :
    ∀ a b, replaceChar x r (a ++ b) = replaceChar x r a ++ replaceChar x r b := by
  intro a
  induction a with
  | nil => intro b; rfl
  | cons c cs ih =>
    intro b
    simp only [List.cons_append, replaceChar]
    by_cases hc : c = x
    · simp [if_pos hc, ih b]
    · simp [if_neg hc, ih b]

/-- Escaping changes nothing on newline-free text. -/
theorem escapeNl_id (l : List Char) (h : ∀ c ∈ l, c ≠ '\n' ∧ c ≠ '\r') :
    escapeNl l = l := by
  unfold escapeNl
  rw [replaceChar_id '\n' _ l (fun c hc => (h c hc).1)]
  rw [replaceChar_id '\r' _ l (fun c hc => (h c hc).2)]

/-- On the characters a string field may contain, the repair escaping
agrees with the `JSON.stringify` escaping. -/
theorem escapeNl_escape (d : List Char) (hd : ∀ c ∈ d, strChar c) :
    escapeNl d = jsonEscape d := by
  induction d with
  | nil => rfl
  | cons c cs ih =>
    have hc := hd c (by simp)
    have hcr : c ≠ '\r' := by
      rcases hc.2.2 with h32 | hnl
      · intro he; subst he; exact absurd h32 (by decide)
      · intro he; rw [he] at hnl; exact absurd hnl (by decide)
    unfold escapeNl
    simp only [replaceChar, jsonEscape, jsonEscapeChar]
    by_cases hn : c = '\n'
    · rw [if_pos hn, replaceChar_append]
      rw [show replaceChar '\r' ['\\', 'r'] ['\\', 'n'] = ['\\', 'n'] from by decide]
      rw [if_pos hn]
      have := ih (fun x hx => hd x (by simp [hx]))
      unfold escapeNl at this
      rw [this]
    · rw [if_neg hn, if_neg hn]
      simp only [replaceChar, if_neg hcr]
      have := ih (fun x hx => hd x (by simp [hx]))
      unfold escapeNl at this
      rw [this]
      simp

/-- One non-quote character passes through the repair scanner. -/
theorem repairQuoted_cons_ne (c : Char) (cs : List Char) (hc : c ≠ '"') :
    repairQuoted (c :: cs) = c :: repairQuoted cs := by
  rw [repairQuoted_eq]
  simp [hc]

/-- A quote-free prefix passes through the repair scanner. -/
theorem repairQuoted_append_nq (a : List Char) (ha : ∀ c ∈ a, c ≠ '"') :
    ∀ b, repairQuoted (a ++ b) = a ++ repairQuoted b := by
  induction a with
  | nil => intro b; rfl
  | cons c cs ih =>
    intro b
    rw [List.cons_append, repairQuoted_cons_ne c _ (ha c (by simp))]
    rw [ih (fun d hd => ha d (by simp [hd])) b]
    rfl

/-- A clean quoted span is repaired by escaping its raw newlines. -/
theorem repairQuoted_span_clean (content : List Char)
    (hc : ∀ c ∈ content, c ≠ '"' ∧ c ≠ '\\') (rest : List Char) :
    repairQuoted ('"' :: (content ++ '"' :: rest)) =
      '"' :: (escapeNl content ++ '"' :: repairQuoted rest) := by
  rw [repairQuoted_eq]
  simp only [if_pos rfl]
  rw [quotedSplit_clean content hc rest]
  simp

/-- An already escaped quoted span passes the repair scanner unchanged. -/
theorem repairQuoted_span_escaped (d : List Char) (hd : ∀ c ∈ d, strChar c) (rest : List Char) :
    repairQuoted ('"' :: (jsonEscape d ++ '"' :: rest)) =
      '"' :: (jsonEscape d ++ '"' :: repairQuoted rest) := by
  rw [repairQuoted_eq]
  simp only [if_pos rfl]
  rw [quotedSplit_escape d hd rest]
  simp only []
  rw [escapeNl_id _ (fun c hc => (mem_jsonEscape d hd c hc).2)]
  simp

/-- Newline-free text passes the repair scanner unchanged. -/
theorem repairQuoted_id (n : Nat) :
    ∀ l : List Char, l.length < n → (∀ c ∈ l, c ≠ '\n' ∧ c ≠ '\r') →
      repairQuoted l = l := by
  induction n with
  | zero => intro l hl; exact absurd hl (by omega)
  | succ n ih =>
    intro l hl hc
    match l with
    | [] => rfl
    | c :: cs =>
      simp only [List.length_cons] at hl
      by_cases hq : c = '"'
      · subst hq
        rw [repairQuoted_eq]
        simp only [if_pos rfl]
        cases hs : quotedSplit cs with
        | none =>
          rw [ih cs (by omega) (fun d hd => hc d (by simp [hd]))]
          simp
        | some p =>
          have hrec := quotedSplit_recover cs p hs
          have hlen := quotedSplit_length cs p hs
          have hmem1 : ∀ d ∈ p.1, d ≠ '\n' ∧ d ≠ '\r' := by
            intro d hd
            exact hc d (by rw [hrec]; simp [hd])
          have hmem2 : ∀ d ∈ p.2, d ≠ '\n' ∧ d ≠ '\r' := by
            intro d hd
            exact hc d (by rw [hrec]; simp [hd])
          simp only []
          rw [escapeNl_id p.1 hmem1, ih p.2 (by omega) hmem2, hrec]
          simp
      · rw [repairQuoted_cons_ne c cs hq]
        rw [ih cs (by omega) (fun d hd => hc d (by simp [hd]))]

/-- Replacement of a two-character pattern whose first character is absent
changes nothing. -/
theorem replacePair_id (a b : Char) (r : List Char) :
    ∀ l, (∀ c ∈ l, c ≠ a) → replacePair a b r l = l := by
  intro l
  induction l using replacePair.induct (a := a) (b := b) (u := r) with
  | case1 => intro _; rfl
  | case2 c => intro _; rfl
  | case3 c d cs hcd ih =>
    intro h
    exact absurd hcd.1 (h c (by simp))
  | case4 c d cs hcd ih =>
    intro h
    rw [replacePair.eq_def]
    simp only [if_neg hcd]
    rw [ih (fun x hx => h x (by simp [hx]))]

/-- Rebuilding a string from its characters. -/
theorem strMk_data (s : String) : String.mk s.data = s := rfl

/-- Scanning an escaped string body recovers the original characters. -/
theorem parseStringBody_escape (d : List Char) (hd : ∀ c ∈ d, strChar c) :
    ∀ r, parseStringBody (jsonEscape d ++ '"' :: r) = some (d, r) := by
  induction d with
  | nil =>
    intro r
    rw [parseStringBody_eq]
    simp [jsonEscape]
  | cons c cs ih =>
    intro r
    have hc := hd c (by simp)
    simp only [jsonEscape, jsonEscapeChar]
    by_cases hn : c = '\n'
    · rw [if_pos hn]
      rw [show (['\\', 'n'] ++ jsonEscape cs) ++ '"' :: r =
        '\\' :: 'n' :: (jsonEscape cs ++ '"' :: r) from by simp]
      rw [parseStringBody_eq]
      rw [if_neg (show ¬('\\' :: 'n' :: (jsonEscape cs ++ '"' :: r)).head? = some '"'
        from by simp)]
      rw [show strUnit ('\\' :: 'n' :: (jsonEscape cs ++ '"' :: r)) =
        some (['\n'], jsonEscape cs ++ '"' :: r) from by simp [strUnit]]
      simp only []
      rw [ih (fun x hx => hd x (by simp [hx])) r]
      simp [hn]
    · rw [if_neg hn]
      have h32 : ¬ c.toNat < 32 := by
        rcases hc.2.2 with h | h
        · omega
        · exact absurd h hn
      rw [show ([c] ++ jsonEscape cs) ++ '"' :: r = c :: (jsonEscape cs ++ '"' :: r)
        from by simp]
      rw [parseStringBody_eq]
      rw [if_neg (show ¬(c :: (jsonEscape cs ++ '"' :: r)).head? = some '"'
        from by simp [hc.1])]
      rw [show strUnit (c :: (jsonEscape cs ++ '"' :: r)) =
        some ([c], jsonEscape cs ++ '"' :: r) from by
          simp [strUnit, hc.1, hc.2.1, h32]]
      simp only []
      rw [ih (fun x hx => hd x (by simp [hx])) r]
      simp

/-- Scanning a plain (escape-free) string body such as an object key. -/
theorem parseStringBody_key (key : List Char) (hkey : jsonEscape key = key)
    (hks : ∀ c ∈ key, strChar c) (r : List Char) :
    parseStringBody (key ++ '"' :: r) = some (key, r) := by
  have h := parseStringBody_escape key hks r
  rw [hkey] at h
  exact h

/-- Scanning a quoted scalar string value. -/
theorem parseScalarValue_str (d : List Char) (hd : ∀ c ∈ d, strChar c) (rest : List Char) :
    parseScalarValue ('"' :: (jsonEscape d ++ '"' :: rest)) =
      some (.str (String.mk d), rest) := by
  rw [parseScalarValue.eq_def]
  simp only []
  rw [if_pos trivial]
  rw [parseStringBody_escape d hd rest]
  rfl

/-- One `"key": "value"` member of the canonical candidate shape. -/
theorem parseMember_strfield (key : List Char) (hkey : jsonEscape key = key)
    (hks : ∀ c ∈ key, strChar c) (d : List Char) (hd : ∀ c ∈ d, strChar c)
    (rest : List Char) :
    parseMember ('"' :: (key ++ '"' :: ':' :: '"' :: (jsonEscape d ++ '"' :: rest))) =
      some ((String.mk key, .str (String.mk d)), rest.dropWhile isJsonWs) := by
  unfold parseMember
  rw [show ('"' :: (key ++ '"' :: ':' :: '"' :: (jsonEscape d ++ '"' :: rest))).dropWhile
      isJsonWs = '"' :: (key ++ '"' :: ':' :: '"' :: (jsonEscape d ++ '"' :: rest)) from by
    rw [List.dropWhile_cons]
    simp [isJsonWs]]
  rw [show expectChar '"' ('"' :: (key ++ '"' :: ':' :: '"' :: (jsonEscape d ++ '"' :: rest))) =
      some (key ++ '"' :: ':' :: '"' :: (jsonEscape d ++ '"' :: rest)) from by
    simp [expectChar]]
  simp only []
  rw [parseStringBody_key key hkey hks (':' :: '"' :: (jsonEscape d ++ '"' :: rest))]
  simp only []
  rw [show (':' :: '"' :: (jsonEscape d ++ '"' :: rest)).dropWhile isJsonWs =
      ':' :: '"' :: (jsonEscape d ++ '"' :: rest) from by
    rw [List.dropWhile_cons]
    simp [isJsonWs]]
  rw [show expectChar ':' (':' :: '"' :: (jsonEscape d ++ '"' :: rest)) =
      some ('"' :: (jsonEscape d ++ '"' :: rest)) from by simp [expectChar]]
  simp only []
  rw [show ('"' :: (jsonEscape d ++ '"' :: rest)).dropWhile isJsonWs =
      '"' :: (jsonEscape d ++ '"' :: rest) from by
    rw [List.dropWhile_cons]
    simp [isJsonWs]]
  rw [parseScalarValue_str d hd rest]

set_option maxHeartbeats 1000000 in
/-- The member scan of the canonical serialization of the three-field
object: `"seoTitle"`, `"specs"`, `"confident"` in order, no spaces. -/
theorem parseMembersAux_canonical (t s : String) (cb : Bool)
    (ht : ∀ c ∈ t.data, strChar c) (hs : ∀ c ∈ s.data, strChar c) :
    parseMembersAux ('"' :: (("seoTitle").data ++ '"' :: ':' :: '"' ::
        (jsonEscape t.data ++ '"' :: ',' :: '"' :: (("specs").data ++ '"' :: ':' :: '"' ::
        (jsonEscape s.data ++ '"' :: ',' :: '"' :: (("confident").data ++ '"' :: ':' ::
        ((if cb then ("true") else ("false")).data ++ ['}']))))))) =
      some ([(("seoTitle"), .str t), (("specs"), .str s), (("confident"), .bool cb)], []) := by
  have hdw : ∀ (x : List Char), (',' :: x).dropWhile isJsonWs = ',' :: x := by
    intro x
    rw [List.dropWhile_cons]
    simp [isJsonWs]
  rw [parseMembersAux_eq]
  rw [parseMember_strfield (("seoTitle").data) (by decide) (by decide) t.data ht
      (',' :: '"' :: (("specs").data ++ '"' :: ':' :: '"' ::
        (jsonEscape s.data ++ '"' :: ',' :: '"' :: (("confident").data ++ '"' :: ':' ::
        ((if cb then ("true") else ("false")).data ++ ['}'])))))]
  simp only []
  rw [hdw]
  simp only [List.head?_cons, List.tail_cons]
  rw [if_pos trivial]
  rw [parseMembersAux_eq]
  rw [parseMember_strfield (("specs").data) (by decide) (by decide) s.data hs
      (',' :: '"' :: (("confident").data ++ '"' :: ':' ::
        ((if cb then ("true") else ("false")).data ++ ['}'])))]
  simp only []
  rw [hdw]
  simp only [List.head?_cons, List.tail_cons]
  rw [if_pos trivial]
  cases cb with
  | false =>
    rw [show parseMembersAux ('"' :: (("confident").data ++ '"' :: ':' ::
        ((if (false : Bool) then ("true") else ("false")).data ++ ['}']))) =
      some ([(("confident"), JScalar.bool false)], []) from by decide]
    simp [strMk_data]
  | true =>
    rw [show parseMembersAux ('"' :: (("confident").data ++ '"' :: ':' ::
        ((if (true : Bool) then ("true") else ("false")).data ++ ['}']))) =
      some ([(("confident"), JScalar.bool true)], []) from by decide]
    simp [strMk_data]

/-- `JSON.parse` of a braced text whose members scan completely. -/
theorem jsonParseFlat_brace (T : List Char) (fields : JObject)
    (hT : T.head? = some '"') (h : parseMembersAux T = some (fields, [])) :
    jsonParseFlat ('{' :: T) = some fields := by
  cases T with
  | nil => simp at hT
  | cons c cs =>
    simp at hT
    subst hT
    unfold jsonParseFlat
    rw [show ('{' :: '"' :: cs).dropWhile isJsonWs = '{' :: '"' :: cs from by
      rw [List.dropWhile_cons]
      simp [isJsonWs]]
    simp only []
    rw [show ('"' :: cs).dropWhile isJsonWs = '"' :: cs from by
      rw [List.dropWhile_cons]
      simp [isJsonWs]]
    rw [h]
    simp

/-- The post-processing step maps the canonical three-field object to
itself when the `specs` value carries no backslash. -/
theorem strictPost_canonical (t s : String) (cb : Bool)
    (hs : ∀ c ∈ s.data, c ≠ '\\') :
    strictPost [(("seoTitle"), .str t), (("specs"), .str s), (("confident"), .bool cb)] =
      some [(("seoTitle"), .str t), (("specs"), .str s), (("confident"), .bool cb)] := by
  have hrep : replacePair '\\' 'n' ['\n'] s.data = s.data :=
    replacePair_id '\\' 'n' ['\n'] s.data hs
  unfold strictPost
  rw [show objGet [(("seoTitle"), .str t), (("specs"), JScalar.str s),
      (("confident"), JScalar.bool cb)] ("specs") = some (JScalar.str s) from by
    simp [objGet]]
  simp only []
  by_cases h0 : s = ""
  · subst h0
    simp [jTruthy]
  · rw [if_pos (show jTruthy (JScalar.str s) = true from by simp [jTruthy, h0])]
    simp [objSet, hrep, strMk_data]

/-- No `json` fence starts at a character other than a backtick. -/
theorem isFenceJson_false (c : Char) (h : c ≠ '`') (x : List Char) :
    isFenceJson (c :: x) = false := by
  unfold isFenceJson
  split <;> simp_all

/-- Three backticks followed by a character that cannot spell `json` start
no `json` fence. -/
theorem isFenceJson_nonj (c1 : Char) (h : ¬ c1.toLower = 'j') (x : List Char) :
    isFenceJson ('`' :: '`' :: '`' :: c1 :: x) = false := by
  match x with
  | [] => rfl
  | [a] => rfl
  | [a, b] => rfl
  | a :: b :: c :: r =>
    unfold isFenceJson
    simp [h]

/-- Two backticks and a non-backtick start no `json` fence. -/
theorem isFenceJson_two (c : Char) (h : c ≠ '`') (x : List Char) :
    isFenceJson ('`' :: '`' :: c :: x) = false := by
  unfold isFenceJson
  split <;> simp_all

/-- One backtick and a non-backtick start no `json` fence. -/
theorem isFenceJson_one (c : Char) (h : c ≠ '`') (x : List Char) :
    isFenceJson ('`' :: c :: x) = false := by
  unfold isFenceJson
  split <;> simp_all

/-- No plain fence starts at a character other than a backtick. -/
theorem isFence_false (c : Char) (h : c ≠ '`') (x : List Char) :
    isFence (c :: x) = false := by
  unfold isFence
  split <;> simp_all

/-- Two backticks and a non-backtick start no plain fence. -/
theorem isFence_two (c : Char) (h : c ≠ '`') (x : List Char) :
    isFence ('`' :: '`' :: c :: x) = false := by
  unfold isFence
  split <;> simp_all

/-- One backtick and a non-backtick start no plain fence. -/
theorem isFence_one (c : Char) (h : c ≠ '`') (x : List Char) :
    isFence ('`' :: c :: x) = false := by
  unfold isFence
  split <;> simp_all

/-- The first stripping pass keeps a non-fence head character. -/
theorem stripTicksJson_cons_nf (c : Char) (cs : List Char)
    (h : isFenceJson (c :: cs) = false) :
    stripTicksJson (c :: cs) = c :: stripTicksJson cs := by
  rw [stripTicksJson_eq]
  simp [h]

/-- The first stripping pass passes a backtick-free prefix through. -/
theorem stripTicksJson_append_nt (a : List Char) (ha : ∀ c ∈ a, c ≠ '`') :
    ∀ b, stripTicksJson (a ++ b) = a ++ stripTicksJson b := by
  induction a with
  | nil => intro b; rfl
  | cons c a' ih =>
    intro b
    rw [List.cons_append,
      stripTicksJson_cons_nf c (a' ++ b) (isFenceJson_false c (ha c (by simp)) _)]
    rw [ih (fun d hd => ha d (by simp [hd])) b]
    rfl

/-- The first stripping pass changes backtick-free text not at all. -/
theorem stripTicksJson_id (l : List Char) (hl : ∀ c ∈ l, c ≠ '`') :
    stripTicksJson l = l := by
  have h := stripTicksJson_append_nt l hl []
  simpa [stripTicksJson, stripTicksJsonFuel] using h

/-- The first stripping pass consumes an opening ```` ```json ```` fence
together with the whitespace after it. -/
theorem stripTicksJson_fence (r : List Char) :
    stripTicksJson ('`' :: '`' :: '`' :: 'j' :: 's' :: 'o' :: 'n' :: '\n' :: r) =
      stripTicksJson (r.dropWhile isJsWs) := by
  rw [stripTicksJson_eq]
  simp only []
  rw [if_pos (show isFenceJson ('`' :: '`' :: '`' :: 'j' :: 's' :: 'o' :: 'n' :: '\n' :: r) =
    true from rfl)]
  simp only [List.drop_succ_cons, List.drop_zero]
  rw [show List.dropWhile isJsWs ('\n' :: r) = List.dropWhile isJsWs r from by
    rw [List.dropWhile_cons]
    simp [isJsWs]]

/-- The second stripping pass keeps a non-fence head character. -/
theorem stripTicks_cons_nf (c : Char) (cs : List Char)
    (h : isFence (c :: cs) = false) :
    stripTicks (c :: cs) = c :: stripTicks cs := by
  rw [stripTicks_eq]
  simp [h]

/-- The second stripping pass passes a backtick-free prefix through. -/
theorem stripTicks_append_nt (a : List Char) (ha : ∀ c ∈ a, c ≠ '`') :
    ∀ b, stripTicks (a ++ b) = a ++ stripTicks b := by
  induction a with
  | nil => intro b; rfl
  | cons c a' ih =>
    intro b
    rw [List.cons_append,
      stripTicks_cons_nf c (a' ++ b) (isFence_false c (ha c (by simp)) _)]
    rw [ih (fun d hd => ha d (by simp [hd])) b]
    rfl

/-- The second stripping pass changes backtick-free text not at all. -/
theorem stripTicks_id (l : List Char) (hl : ∀ c ∈ l, c ≠ '`') :
    stripTicks l = l := by
  have h := stripTicks_append_nt l hl []
  simpa [stripTicks, stripTicksFuel] using h

/-- The second stripping pass consumes a bare fence together with the
whitespace after it. -/
theorem stripTicks_fence (r : List Char) :
    stripTicks ('`' :: '`' :: '`' :: r) = stripTicks (r.dropWhile isJsWs) := by
  rw [stripTicks_eq]
  simp only []
  rw [if_pos (show isFence ('`' :: '`' :: '`' :: r) = true from rfl)]
  simp only [List.drop_succ_cons, List.drop_zero]

/-- Dropping leading characters stops at the first one outside the
predicate, wherever it sits after a prefix. -/
theorem dropWhile_append_stop (p : Char → Bool) (c : Char) (hc : p c = false)
    (A X : List Char) :
    (A ++ c :: X).dropWhile p = A.dropWhile p ++ c :: X := by
  induction A with
  | nil => simp [List.dropWhile_cons, hc]
  | cons a A ih =>
    by_cases ha : p a
    · simp [List.dropWhile_cons, ha, ih]
    · simp [List.dropWhile_cons, ha]

/-- `trim` on text that holds a brace-delimited core only erodes the
whitespace of the two prose ends. -/
theorem jsTrim_wrap (A M B : List Char) :
    jsTrimList (A ++ '{' :: (M ++ '}' :: B)) =
      A.dropWhile isJsWs ++ '{' :: (M ++ '}' :: (B.reverse.dropWhile isJsWs).reverse) := by
  unfold jsTrimList
  rw [dropWhile_append_stop isJsWs '{' (by decide) A (M ++ '}' :: B)]
  rw [show (A.dropWhile isJsWs ++ '{' :: (M ++ '}' :: B)).reverse =
      B.reverse ++ '}' :: (M.reverse ++ '{' :: (A.dropWhile isJsWs).reverse) from by
    simp [List.reverse_append, List.reverse_cons, List.append_assoc]]
  rw [dropWhile_append_stop isJsWs '}' (by decide) B.reverse
    (M.reverse ++ '{' :: (A.dropWhile isJsWs).reverse)]
  simp [List.reverse_append, List.reverse_cons, List.append_assoc]

/-- The brace-span regex on prose-wrapped text: everything from the first
opening brace to the last closing brace. -/
theorem jsonMatch_wrap (a mid b : List Char)
    (ha : ∀ c ∈ a, c ≠ '{') (hb : ∀ c ∈ b, c ≠ '}') :
    jsonMatch (a ++ '{' :: (mid ++ '}' :: b)) = some ('{' :: (mid ++ ['}'])) := by
  unfold jsonMatch
  rw [dropWhile_append_all _ a ('{' :: (mid ++ '}' :: b))
    (fun c hc => by simp [ha c hc])]
  rw [show ('{' :: (mid ++ '}' :: b)).dropWhile (fun c => c ≠ '{') =
      '{' :: (mid ++ '}' :: b) from by
    rw [List.dropWhile_cons]
    simp]
  simp only []
  rw [show (mid ++ '}' :: b).reverse = b.reverse ++ '}' :: mid.reverse from by
    simp [List.reverse_append, List.reverse_cons, List.append_assoc]]
  rw [dropWhile_append_all _ b.reverse ('}' :: mid.reverse)
    (fun c hc => by simp [hb c (List.mem_reverse.mp hc)])]
  rw [show ('}' :: mid.reverse).dropWhile (fun c => c ≠ '}') = '}' :: mid.reverse from by
    rw [List.dropWhile_cons]
    simp]
  simp [List.reverse_cons]

/-- The serializer emits exactly the canonical candidate characters. -/
theorem stringifyObj3_data (t s : String) (cb : Bool) :
    (stringifyObj3 t s cb).data = cand3 t s cb := by
  cases cb <;> simp [stringifyObj3, jsonQuote, cand3, String.data_append]

/-- The candidate as one concatenation of its seven segments. -/
theorem cand3_segments (t s : String) (cb : Bool) :
    cand3 t s cb =
      ("\x7b\"seoTitle\":\"").data ++ jsonEscape t.data ++ ("\",\"specs\":\"").data ++
        jsonEscape s.data ++ ("\",\"confident\":").data ++
        (if cb then ("true") else ("false")).data ++ ("\x7d").data := by
  cases cb <;> simp [cand3]

/-- Appending after the candidate re-associates around its final brace. -/
theorem cand3_append (t s : String) (cb : Bool) (X : List Char) :
    cand3 t s cb ++ X =
      '{' :: (('"' :: (("seoTitle").data ++ '"' :: ':' :: '"' ::
        (jsonEscape t.data ++ '"' :: ',' :: '"' :: (("specs").data ++ '"' :: ':' :: '"' ::
        (jsonEscape s.data ++ '"' :: ',' :: '"' :: (("confident").data ++ '"' :: ':' ::
        (if cb then ("true") else ("false")).data))))))
      ++ '}' :: X) := by
  simp [cand3, List.append_assoc]

/-- Every character of the candidate comes from one of the two escaped
fields or the fixed serialization syntax. -/
theorem mem_cand3 (t s : String) (cb : Bool) :
    ∀ c ∈ cand3 t s cb, c ∈ jsonEscape t.data ∨ c ∈ jsonEscape s.data ∨
      c ∈ (("\x7b\x7d\"seoTitlpcnfdrua:,").data) := by
  intro c hc
  rw [cand3_segments] at hc
  simp only [List.append_assoc, List.mem_append] at hc
  rcases hc with h | h | h | h | h | h | h
  · right; right
    exact (show ∀ x ∈ (("\x7b\"seoTitle\":\"").data), x ∈ (("\x7b\x7d\"seoTitlpcnfdrua:,").data)
      from by decide) c h
  · exact Or.inl h
  · right; right
    exact (show ∀ x ∈ (("\",\"specs\":\"").data), x ∈ (("\x7b\x7d\"seoTitlpcnfdrua:,").data)
      from by decide) c h
  · exact Or.inr (Or.inl h)
  · right; right
    exact (show ∀ x ∈ (("\",\"confident\":").data), x ∈ (("\x7b\x7d\"seoTitlpcnfdrua:,").data)
      from by decide) c h
  · right; right
    cases cb with
    | false =>
      exact (show ∀ x ∈ (("false").data), x ∈ (("\x7b\x7d\"seoTitlpcnfdrua:,").data)
        from by decide) c h
    | true =>
      exact (show ∀ x ∈ (("true").data), x ∈ (("\x7b\x7d\"seoTitlpcnfdrua:,").data)
        from by decide) c h
  · right; right
    exact (show ∀ x ∈ (("\x7d").data), x ∈ (("\x7b\x7d\"seoTitlpcnfdrua:,").data)
      from by decide) c h

/-- The candidate is backtick-free when its fields are. -/
theorem cand3_no_tick (t s : String) (cb : Bool)
    (ht : ∀ c ∈ t.data, strChar c ∧ c ≠ '`') (hs : ∀ c ∈ s.data, strChar c ∧ c ≠ '`') :
    ∀ c ∈ cand3 t s cb, c ≠ '`' := by
  intro c hc
  rcases mem_cand3 t s cb c hc with h | h | h
  · rcases (mem_jsonEscape t.data (fun x hx => (ht x hx).1) c h).1 with h2 | h2 | h2
    · exact (ht c h2).2
    · subst h2; decide
    · subst h2; decide
  · rcases (mem_jsonEscape s.data (fun x hx => (hs x hx).1) c h).1 with h2 | h2 | h2
    · exact (hs c h2).2
    · subst h2; decide
    · subst h2; decide
  · exact (show ∀ x ∈ (("\x7b\x7d\"seoTitlpcnfdrua:,").data), x ≠ '`' from by decide) c h

/-- The raw serializer emits exactly the raw candidate characters. -/
theorem rawSerialize3_data (t s : String) (cb : Bool) :
    (rawSerialize3 t s cb).data = rawCand3 t s cb := by
  cases cb <;> simp [rawSerialize3, rawCand3, String.data_append]

/-- Appending after the raw candidate re-associates around its final
brace. -/
theorem rawCand3_append (t s : String) (cb : Bool) (X : List Char) :
    rawCand3 t s cb ++ X =
      '{' :: (('"' :: (("seoTitle").data ++ '"' :: ':' :: '"' ::
        (t.data ++ '"' :: ',' :: '"' :: (("specs").data ++ '"' :: ':' :: '"' ::
        (s.data ++ '"' :: ',' :: '"' :: (("confident").data ++ '"' :: ':' ::
        (if cb then ("true") else ("false")).data))))))
      ++ '}' :: X) := by
  simp [rawCand3, List.append_assoc]

/-- The repair scanner walked over the whole three-member object shape:
each key span survives, each value span is rewritten by its given span
behaviour, the boolean tail is quote-free. -/
theorem repairQuoted_walk3 (v1 w1 v2 w2 cl : List Char)
    (h1 : ∀ r, repairQuoted ('"' :: (v1 ++ '"' :: r)) = '"' :: (w1 ++ '"' :: repairQuoted r))
    (h2 : ∀ r, repairQuoted ('"' :: (v2 ++ '"' :: r)) = '"' :: (w2 ++ '"' :: repairQuoted r))
    (hcl : ∀ c ∈ cl, c ≠ '"') :
    repairQuoted ('{' :: '"' :: (("seoTitle").data ++ '"' :: ':' :: '"' ::
        (v1 ++ '"' :: ',' :: '"' :: (("specs").data ++ '"' :: ':' :: '"' ::
        (v2 ++ '"' :: ',' :: '"' :: (("confident").data ++ '"' :: ':' ::
        (cl ++ ['}']))))))) =
      '{' :: '"' :: (("seoTitle").data ++ '"' :: ':' :: '"' ::
        (w1 ++ '"' :: ',' :: '"' :: (("specs").data ++ '"' :: ':' :: '"' ::
        (w2 ++ '"' :: ',' :: '"' :: (("confident").data ++ '"' :: ':' ::
        (cl ++ ['}'])))))) := by
  rw [repairQuoted_cons_ne '{' _ (by decide)]
  rw [repairQuoted_span_clean (("seoTitle").data) (by decide) _]
  rw [show escapeNl (("seoTitle").data) = ("seoTitle").data from by decide]
  rw [repairQuoted_cons_ne ':' _ (by decide)]
  rw [h1]
  rw [repairQuoted_cons_ne ',' _ (by decide)]
  rw [repairQuoted_span_clean (("specs").data) (by decide) _]
  rw [show escapeNl (("specs").data) = ("specs").data from by decide]
  rw [repairQuoted_cons_ne ':' _ (by decide)]
  rw [h2]
  rw [repairQuoted_cons_ne ',' _ (by decide)]
  rw [repairQuoted_span_clean (("confident").data) (by decide) _]
  rw [show escapeNl (("confident").data) = ("confident").data from by decide]
  rw [repairQuoted_cons_ne ':' _ (by decide)]
  rw [repairQuoted_append_nq cl hcl ['}']]
  rw [show repairQuoted ['}'] = ['}'] from by decide]

/-- The escaped candidate passes the repair scanner unchanged. -/
theorem repairQuoted_cand3 (t s : String) (cb : Bool)
    (ht : ∀ c ∈ t.data, strChar c) (hs : ∀ c ∈ s.data, strChar c) :
    repairQuoted (cand3 t s cb) = cand3 t s cb := by
  unfold cand3
  exact repairQuoted_walk3 (jsonEscape t.data) (jsonEscape t.data)
    (jsonEscape s.data) (jsonEscape s.data) _
    (fun r => repairQuoted_span_escaped t.data ht r)
    (fun r => repairQuoted_span_escaped s.data hs r)
    (by cases cb <;> decide)

/-- The repair scanner turns the raw candidate into the escaped one. -/
theorem repairQuoted_raw3 (t s : String) (cb : Bool)
    (ht : ∀ c ∈ t.data, strChar c) (hs : ∀ c ∈ s.data, strChar c) :
    repairQuoted (rawCand3 t s cb) = cand3 t s cb := by
  unfold rawCand3 cand3
  have h1 : ∀ r, repairQuoted ('"' :: (t.data ++ '"' :: r)) =
      '"' :: (jsonEscape t.data ++ '"' :: repairQuoted r) := by
    intro r
    rw [repairQuoted_span_clean t.data (fun c hc => ⟨(ht c hc).1, (ht c hc).2.1⟩) r]
    rw [escapeNl_escape t.data ht]
  have h2 : ∀ r, repairQuoted ('"' :: (s.data ++ '"' :: r)) =
      '"' :: (jsonEscape s.data ++ '"' :: repairQuoted r) := by
    intro r
    rw [repairQuoted_span_clean s.data (fun c hc => ⟨(hs c hc).1, (hs c hc).2.1⟩) r]
    rw [escapeNl_escape s.data hs]
  exact repairQuoted_walk3 t.data (jsonEscape t.data) s.data (jsonEscape s.data) _
    h1 h2 (by cases cb <;> decide)

/-- `JSON.parse` accepts the escaped candidate and yields the three
members in order. -/
theorem jsonParseFlat_cand3 (t s : String) (cb : Bool)
    (ht : ∀ c ∈ t.data, strChar c) (hs : ∀ c ∈ s.data, strChar c) :
    jsonParseFlat (cand3 t s cb) =
      some [(("seoTitle"), .str t), (("specs"), .str s), (("confident"), .bool cb)] := by
  unfold cand3
  exact jsonParseFlat_brace _ _ rfl (parseMembersAux_canonical t s cb ht hs)

/-- The candidate splits as opening brace, interior, closing brace. -/
theorem cand3_append_mid (t s : String) (cb : Bool) (X : List Char) :
    cand3 t s cb ++ X = '{' :: (mid3 t s cb ++ '}' :: X) := by
  simp [cand3, mid3, List.append_assoc]

/-- The candidate itself in brace-interior-brace form. -/
theorem cand3_eq_mid (t s : String) (cb : Bool) :
    cand3 t s cb = '{' :: (mid3 t s cb ++ ['}']) := by
  simp [cand3, mid3, List.append_assoc]

/-- Leading whitespace removal stops at the candidate's opening brace. -/
theorem cand3_dropWhile (t s : String) (cb : Bool) (X : List Char) :
    (cand3 t s cb ++ X).dropWhile isJsWs = cand3 t s cb ++ X := by
  rw [cand3_append_mid t s cb X, List.dropWhile_cons]
  simp [isJsWs]

/-- The strict path on trimmed text that wraps the escaped candidate in
brace-free and backtick-free prose. -/
theorem strictPath_wrap3 (t s : String) (cb : Bool) (A B : List Char)
    (ht : ∀ c ∈ t.data, strChar c) (hs : ∀ c ∈ s.data, strChar c)
    (hA : ∀ c ∈ A, c ≠ '{') (hB : ∀ c ∈ B, c ≠ '}') :
    strictPath (A ++ (cand3 t s cb ++ B)) =
      some [(("seoTitle"), .str t), (("specs"), .str s), (("confident"), .bool cb)] := by
  unfold strictPath
  rw [cand3_append_mid t s cb B]
  rw [jsonMatch_wrap A (mid3 t s cb) B hA hB]
  simp only []
  rw [show '{' :: (mid3 t s cb ++ ['}']) = cand3 t s cb from (cand3_eq_mid t s cb).symm]
  rw [repairQuoted_cand3 t s cb ht hs]
  rw [jsonParseFlat_cand3 t s cb ht hs]
  exact strictPost_canonical t s cb (fun c hc => (hs c hc).2.1)

/-- Normalisation of the fence-and-prose wrapped serialization: the fences
dissolve, the candidate survives, the prose ends lose their outer
whitespace. -/
theorem stripText_wrap3 (t s p1 p2 : String) (cb : Bool)
    (ht : ∀ c ∈ t.data, strChar c ∧ c ≠ '`')
    (hs : ∀ c ∈ s.data, strChar c ∧ c ≠ '`')
    (hp1 : ∀ c ∈ p1.data, c ≠ '`' ∧ c ≠ '{')
    (hp2 : ∀ c ∈ p2.data, c ≠ '`' ∧ c ≠ '}') :
    stripText (p1 ++ ("```json\n") ++ stringifyObj3 t s cb ++ ("\n```\n") ++ p2) =
      p1.data.dropWhile isJsWs ++ (cand3 t s cb ++
        ((('\n' :: p2.data.dropWhile isJsWs).reverse.dropWhile isJsWs).reverse)) := by
  have hdata : (p1 ++ ("```json\n") ++ stringifyObj3 t s cb ++ ("\n```\n") ++ p2).data =
      p1.data ++ ('`' :: '`' :: '`' :: 'j' :: 's' :: 'o' :: 'n' :: '\n' ::
        (cand3 t s cb ++ ('\n' :: '`' :: '`' :: '`' :: '\n' :: p2.data))) := by
    simp [String.data_append, stringifyObj3_data, List.append_assoc]
  unfold stripText
  rw [hdata]
  rw [stripTicksJson_append_nt p1.data (fun c hc => (hp1 c hc).1)]
  rw [stripTicksJson_fence]
  rw [cand3_dropWhile]
  rw [stripTicksJson_append_nt (cand3 t s cb) (cand3_no_tick t s cb ht hs)]
  rw [stripTicksJson_cons_nf '\n' _ (isFenceJson_false '\n' (by decide) _)]
  rw [stripTicksJson_cons_nf '`' _ (isFenceJson_nonj '\n' (by decide) p2.data)]
  rw [stripTicksJson_cons_nf '`' _ (isFenceJson_two '\n' (by decide) p2.data)]
  rw [stripTicksJson_cons_nf '`' _ (isFenceJson_one '\n' (by decide) p2.data)]
  rw [stripTicksJson_cons_nf '\n' _ (isFenceJson_false '\n' (by decide) p2.data)]
  rw [stripTicksJson_id p2.data (fun c hc => (hp2 c hc).1)]
  rw [stripTicks_append_nt p1.data (fun c hc => (hp1 c hc).1)]
  rw [stripTicks_append_nt (cand3 t s cb) (cand3_no_tick t s cb ht hs)]
  rw [stripTicks_cons_nf '\n' _ (isFence_false '\n' (by decide) _)]
  rw [stripTicks_fence]
  rw [show ('\n' :: p2.data).dropWhile isJsWs = p2.data.dropWhile isJsWs from by
    rw [List.dropWhile_cons]
    simp [isJsWs]]
  rw [stripTicks_id (p2.data.dropWhile isJsWs)
    (fun c hc => (hp2 c ((List.dropWhile_sublist isJsWs (l := p2.data)).subset hc)).1)]
  rw [cand3_append_mid t s cb ('\n' :: p2.data.dropWhile isJsWs)]
  rw [jsTrim_wrap p1.data (mid3 t s cb) ('\n' :: p2.data.dropWhile isJsWs)]
  rw [← cand3_append_mid t s cb _]

/-- C6 amended: for objects whose string fields hold no quote, backslash,
backtick or control character other than newline, serializing to JSON,
wrapping the serialization in Markdown code fences and surrounding prose
(prose free of backticks, the leading prose free of opening braces, the
trailing prose free of closing braces), then running parseAIResponse,
returns exactly the original object, confident preserved.  Without the
field restrictions the round trip is not an identity: a specs value
holding the two-character sequence backslash-n comes back with a literal
newline in its place. -/
theorem claim_C6_amended (t s p1 p2 : String) (cb : Bool)
    (ht : ∀ c ∈ t.data, strChar c ∧ c ≠ '`')
    (hs : ∀ c ∈ s.data, strChar c ∧ c ≠ '`')
    (hp1 : ∀ c ∈ p1.data, c ≠ '`' ∧ c ≠ '{')
    (hp2 : ∀ c ∈ p2.data, c ≠ '`' ∧ c ≠ '}') :
    parseAIResponse (p1 ++ ("```json\n") ++ stringifyObj3 t s cb ++ ("\n```\n") ++ p2) =
      .ok [(("seoTitle"), .str t), (("specs"), .str s), (("confident"), .bool cb)] := by
  have hstrip := stripText_wrap3 t s p1 p2 cb ht hs hp1 hp2
  have hA : ∀ c ∈ p1.data.dropWhile isJsWs, c ≠ '{' :=
    fun c hc => (hp1 c ((List.dropWhile_sublist isJsWs (l := p1.data)).subset hc)).2
  have hB : ∀ c ∈ (('\n' :: p2.data.dropWhile isJsWs).reverse.dropWhile isJsWs).reverse,
      c ≠ '}' := by
    intro c hc
    rw [List.mem_reverse] at hc
    have hc2 := (List.dropWhile_sublist isJsWs
      (l := ('\n' :: p2.data.dropWhile isJsWs).reverse)).subset hc
    rw [List.mem_reverse] at hc2
    rcases List.mem_cons.mp hc2 with rfl | hc3
    · decide
    · exact (hp2 c ((List.dropWhile_sublist isJsWs (l := p2.data)).subset hc3)).2
  have hsp := strictPath_wrap3 t s cb _ _
    (fun c hc => (ht c hc).1) (fun c hc => (hs c hc).1) hA hB
  unfold parseAIResponse
  simp only []
  rw [hstrip, hsp]

/-- Witness for the amended C6: a concrete wrapped serialization
round-trips. -/
theorem claim_C6_witness :
    (∀ c ∈ ("Dell XPS 13").data, strChar c ∧ c ≠ '`') ∧
    (∀ c ∈ ("CPU: i5\nRAM: 8GB").data, strChar c ∧ c ≠ '`') ∧
    (∀ c ∈ ("Here is the JSON:\n").data, c ≠ '`' ∧ c ≠ '{') ∧
    (∀ c ∈ ("\nDone.").data, c ≠ '`' ∧ c ≠ '}') ∧
    parseAIResponse ("Here is the JSON:\n" ++ ("```json\n") ++
        stringifyObj3 ("Dell XPS 13") ("CPU: i5\nRAM: 8GB") true ++ ("\n```\n") ++
        ("\nDone.")) =
      .ok [(("seoTitle"), .str ("Dell XPS 13")),
           (("specs"), .str ("CPU: i5\nRAM: 8GB")),
           (("confident"), .bool true)] :=
  ⟨by decide, by decide, by decide, by decide,
   claim_C6_amended ("Dell XPS 13") ("CPU: i5\nRAM: 8GB") ("Here is the JSON:\n") ("\nDone.") true
     (by decide) (by decide) (by decide) (by decide)⟩

/-- Escaping changes nothing on a newline-free string. -/
theorem jsonEscape_id (d : List Char) (hd : ∀ c ∈ d, c ≠ '\n') :
    jsonEscape d = d := by
  induction d with
  | nil => rfl
  | cons c cs ih =>
    simp [jsonEscape, jsonEscapeChar, hd c (by simp),
      ih (fun x hx => hd x (by simp [hx]))]

/-- A raw newline inside a string body makes the scan fail: `JSON.parse`
rejects unescaped control characters. -/
theorem parseStringBody_none_nl :
    ∀ d : List Char, (∀ c ∈ d, strChar c) → '\n' ∈ d →
      ∀ r, parseStringBody (d ++ '"' :: r) = none := by
  intro d
  induction d with
  | nil => intro _ hnl; simp at hnl
  | cons c cs ih =>
    intro hd hnl r
    by_cases hcn : c = '\n'
    · subst hcn
      rw [List.cons_append, parseStringBody_eq]
      rw [if_neg (by simp)]
      rw [show strUnit ('\n' :: (cs ++ '"' :: r)) = none from by simp [strUnit]]
    · have hcs : '\n' ∈ cs := by
        rcases List.mem_cons.mp hnl with h | h
        · exact absurd h.symm hcn
        · exact h
      have hc := hd c (by simp)
      have h32 : ¬ c.toNat < 32 := by
        rcases hc.2.2 with h | h
        · omega
        · exact absurd h hcn
      rw [List.cons_append, parseStringBody_eq]
      rw [if_neg (by simp [hc.1])]
      rw [show strUnit (c :: (cs ++ '"' :: r)) = some ([c], cs ++ '"' :: r) from by
        simp [strUnit, hc.1, hc.2.1, h32]]
      simp only []
      rw [ih (fun x hx => hd x (by simp [hx])) hcs r]
      rfl

/-- A member whose string body does not scan makes the member fail. -/
theorem parseMember_strfield_none (key : List Char) (hkey : jsonEscape key = key)
    (hks : ∀ c ∈ key, strChar c) (body : List Char)
    (hb : parseStringBody body = none) :
    parseMember ('"' :: (key ++ '"' :: ':' :: '"' :: body)) = none := by
  unfold parseMember
  rw [show ('"' :: (key ++ '"' :: ':' :: '"' :: body)).dropWhile isJsonWs =
      '"' :: (key ++ '"' :: ':' :: '"' :: body) from by
    rw [List.dropWhile_cons]
    simp [isJsonWs]]
  rw [show expectChar '"' ('"' :: (key ++ '"' :: ':' :: '"' :: body)) =
      some (key ++ '"' :: ':' :: '"' :: body) from by simp [expectChar]]
  simp only []
  rw [parseStringBody_key key hkey hks (':' :: '"' :: body)]
  simp only []
  rw [show (':' :: '"' :: body).dropWhile isJsonWs = ':' :: '"' :: body from by
    rw [List.dropWhile_cons]
    simp [isJsonWs]]
  rw [show expectChar ':' (':' :: '"' :: body) = some ('"' :: body) from by
    simp [expectChar]]
  simp only []
  rw [show ('"' :: body).dropWhile isJsonWs = '"' :: body from by
    rw [List.dropWhile_cons]
    simp [isJsonWs]]
  rw [show parseScalarValue ('"' :: body) = none from by
    rw [parseScalarValue.eq_def]
    simp only []
    rw [if_pos trivial]
    rw [hb]
    rfl]

/-- `JSON.parse` of a braced text whose members fail to scan. -/
theorem jsonParseFlat_brace_none (T : List Char)
    (hT : T.head? = some '"') (h : parseMembersAux T = none) :
    jsonParseFlat ('{' :: T) = none := by
  cases T with
  | nil => simp at hT
  | cons c cs =>
    simp at hT
    subst hT
    unfold jsonParseFlat
    rw [show ('{' :: '"' :: cs).dropWhile isJsonWs = '{' :: '"' :: cs from by
      rw [List.dropWhile_cons]
      simp [isJsonWs]]
    simp only []
    rw [show ('"' :: cs).dropWhile isJsonWs = '"' :: cs from by
      rw [List.dropWhile_cons]
      simp [isJsonWs]]
    rw [h]
    simp

/-- The member scan of the raw candidate fails at the newline inside the
`specs` value. -/
theorem parseMembersAux_raw3_none (t s : String) (cb : Bool)
    (ht : ∀ c ∈ t.data, strChar c ∧ c ≠ '\n') (hs : ∀ c ∈ s.data, strChar c)
    (hnl : '\n' ∈ s.data) :
    parseMembersAux ('"' :: (("seoTitle").data ++ '"' :: ':' :: '"' ::
        (t.data ++ '"' :: ',' :: '"' :: (("specs").data ++ '"' :: ':' :: '"' ::
        (s.data ++ '"' :: ',' :: '"' :: (("confident").data ++ '"' :: ':' ::
        ((if cb then ("true") else ("false")).data ++ ['}']))))))) = none := by
  have hdw : ∀ (x : List Char), (',' :: x).dropWhile isJsonWs = ',' :: x := by
    intro x
    rw [List.dropWhile_cons]
    simp [isJsonWs]
  rw [show t.data = jsonEscape t.data from
    (jsonEscape_id t.data (fun c hc => (ht c hc).2)).symm]
  rw [parseMembersAux_eq]
  rw [parseMember_strfield (("seoTitle").data) (by decide) (by decide) t.data
      (fun c hc => (ht c hc).1)
      (',' :: '"' :: (("specs").data ++ '"' :: ':' :: '"' ::
        (s.data ++ '"' :: ',' :: '"' :: (("confident").data ++ '"' :: ':' ::
        ((if cb then ("true") else ("false")).data ++ ['}'])))))]
  simp only []
  rw [hdw]
  simp only [List.head?_cons, List.tail_cons]
  rw [if_pos trivial]
  rw [parseMembersAux_eq]
  rw [parseMember_strfield_none (("specs").data) (by decide) (by decide)
    (s.data ++ '"' :: ',' :: '"' :: (("confident").data ++ '"' :: ':' ::
      ((if cb then ("true") else ("false")).data ++ ['}'])))
    (parseStringBody_none_nl s.data hs hnl
      (',' :: '"' :: (("confident").data ++ '"' :: ':' ::
        ((if cb then ("true") else ("false")).data ++ ['}']))))]
  simp

/-- The raw candidate in brace-interior-brace form. -/
theorem rawCand3_eq_mid (t s : String) (cb : Bool) :
    rawCand3 t s cb = '{' :: (rawMid3 t s cb ++ ['}']) := by
  simp [rawCand3, rawMid3, List.append_assoc]

/-- The raw candidate as one concatenation of its seven segments. -/
theorem rawCand3_segments (t s : String) (cb : Bool) :
    rawCand3 t s cb =
      ("\x7b\"seoTitle\":\"").data ++ t.data ++ ("\",\"specs\":\"").data ++
        s.data ++ ("\",\"confident\":").data ++
        (if cb then ("true") else ("false")).data ++ ("\x7d").data := by
  cases cb <;> simp [rawCand3]

/-- The raw candidate is backtick-free when its fields are. -/
theorem rawCand3_no_tick (t s : String) (cb : Bool)
    (ht : ∀ c ∈ t.data, c ≠ '`') (hs : ∀ c ∈ s.data, c ≠ '`') :
    ∀ c ∈ rawCand3 t s cb, c ≠ '`' := by
  intro c hc
  rw [rawCand3_segments] at hc
  simp only [List.append_assoc, List.mem_append] at hc
  rcases hc with h | h | h | h | h | h | h
  · exact (show ∀ x ∈ (("\x7b\"seoTitle\":\"").data), x ≠ '`' from by decide) c h
  · exact ht c h
  · exact (show ∀ x ∈ (("\",\"specs\":\"").data), x ≠ '`' from by decide) c h
  · exact hs c h
  · exact (show ∀ x ∈ (("\",\"confident\":").data), x ≠ '`' from by decide) c h
  · cases cb with
    | false => exact (show ∀ x ∈ (("false").data), x ≠ '`' from by decide) c h
    | true => exact (show ∀ x ∈ (("true").data), x ≠ '`' from by decide) c h
  · exact (show ∀ x ∈ (("\x7d").data), x ≠ '`' from by decide) c h

/-- `trim` keeps a braced text unchanged. -/
theorem jsTrim_braced (M : List Char) :
    jsTrimList ('{' :: (M ++ '}' :: [])) = '{' :: (M ++ '}' :: []) := by
  have h := jsTrim_wrap [] M []
  simpa using h

/-- The raw serialization passes input normalisation untouched. -/
theorem stripText_raw3 (t s : String) (cb : Bool)
    (ht : ∀ c ∈ t.data, c ≠ '`') (hs : ∀ c ∈ s.data, c ≠ '`') :
    stripText (rawSerialize3 t s cb) = rawCand3 t s cb := by
  unfold stripText
  rw [rawSerialize3_data]
  rw [stripTicksJson_id _ (rawCand3_no_tick t s cb ht hs)]
  rw [stripTicks_id _ (rawCand3_no_tick t s cb ht hs)]
  rw [rawCand3_eq_mid]
  rw [jsTrim_braced (rawMid3 t s cb)]

/-- The strict path repairs and parses the raw candidate. -/
theorem strictPath_raw3 (t s : String) (cb : Bool)
    (ht : ∀ c ∈ t.data, strChar c) (hs : ∀ c ∈ s.data, strChar c) :
    strictPath (rawCand3 t s cb) =
      some [(("seoTitle"), .str t), (("specs"), .str s), (("confident"), .bool cb)] := by
  unfold strictPath
  rw [rawCand3_eq_mid]
  have hm := jsonMatch_wrap [] (rawMid3 t s cb) [] (by simp) (by simp)
  rw [List.nil_append] at hm
  rw [hm]
  simp only []
  rw [show '{' :: (rawMid3 t s cb ++ ['}']) = rawCand3 t s cb from
    (rawCand3_eq_mid t s cb).symm]
  rw [repairQuoted_raw3 t s cb ht hs]
  rw [jsonParseFlat_cand3 t s cb ht hs]
  exact strictPost_canonical t s cb (fun c hc => (hs c hc).2.1)

/-- C7: a strictly shaped JSON candidate whose specs value carries a raw
newline byte is invalid as received — `JSON.parse` rejects it — yet the
escape-repair step rewrites the raw newline inside the quoted string to
its two-character escaped form (the repaired text is exactly the escaped
serialization), and parseAIResponse succeeds on the strict path with the
correct multi-line specs string. -/
theorem claim_C7 (t s : String) (cb : Bool)
    (ht : ∀ c ∈ t.data, strChar c ∧ c ≠ '\n' ∧ c ≠ '`')
    (hs : ∀ c ∈ s.data, strChar c ∧ c ≠ '`')
    (hnl : '\n' ∈ s.data) :
    jsonParseFlat (rawSerialize3 t s cb).data = none ∧
    repairQuoted (rawSerialize3 t s cb).data = (stringifyObj3 t s cb).data ∧
    parseAIResponse (rawSerialize3 t s cb) =
      .ok [(("seoTitle"), .str t), (("specs"), .str s), (("confident"), .bool cb)] := by
  refine ⟨?_, ?_, ?_⟩
  · rw [rawSerialize3_data]
    unfold rawCand3
    exact jsonParseFlat_brace_none _ rfl
      (parseMembersAux_raw3_none t s cb
        (fun c hc => ⟨(ht c hc).1, (ht c hc).2.1⟩) (fun c hc => (hs c hc).1) hnl)
  · rw [rawSerialize3_data, stringifyObj3_data]
    exact repairQuoted_raw3 t s cb (fun c hc => (ht c hc).1) (fun c hc => (hs c hc).1)
  · unfold parseAIResponse
    simp only []
    rw [stripText_raw3 t s cb (fun c hc => (ht c hc).2.2) (fun c hc => (hs c hc).2)]
    rw [strictPath_raw3 t s cb (fun c hc => (ht c hc).1) (fun c hc => (hs c hc).1)]

/-- Witness for C7: a concrete raw-newline candidate is repaired and
parsed. -/
theorem claim_C7_witness :
    (∀ c ∈ ("Dell XPS 13").data, strChar c ∧ c ≠ '\n' ∧ c ≠ '`') ∧
    (∀ c ∈ ("CPU: i5\nRAM: 8GB").data, strChar c ∧ c ≠ '`') ∧
    '\n' ∈ ("CPU: i5\nRAM: 8GB").data ∧
    (jsonParseFlat (rawSerialize3 ("Dell XPS 13") ("CPU: i5\nRAM: 8GB") false).data = none ∧
     repairQuoted (rawSerialize3 ("Dell XPS 13") ("CPU: i5\nRAM: 8GB") false).data =
       (stringifyObj3 ("Dell XPS 13") ("CPU: i5\nRAM: 8GB") false).data ∧
     parseAIResponse (rawSerialize3 ("Dell XPS 13") ("CPU: i5\nRAM: 8GB") false) =
       .ok [(("seoTitle"), .str ("Dell XPS 13")),
            (("specs"), .str ("CPU: i5\nRAM: 8GB")),
            (("confident"), .bool false)]) :=
  ⟨by decide, by decide, by decide,
   claim_C7 ("Dell XPS 13") ("CPU: i5\nRAM: 8GB") false
     (by decide) (by decide) (by decide)⟩
set_option maxHeartbeats 1000000 in
/-- C6 counterexample: the round trip is not an identity for every object
with string seoTitle/specs and boolean confident.  For the object with
specs `C:\new` — backslash, then the letter n — the wrapped serialization
comes back with specs `C:`, a literal newline, `ew`: the strict path's
post-processing rewrites every two-character `\n` sequence inside specs,
original or not. -/
theorem claim_C6_counterexample :
    parseAIResponse ("```json\n" ++ jsStringifyObj3 ("T") ("C:\\new") true ++ "\n```\n") =
      .ok [(("seoTitle"), .str ("T")), (("specs"), .str ("C:\new")),
           (("confident"), .bool true)] ∧
    parseAIResponse ("```json\n" ++ jsStringifyObj3 ("T") ("C:\\new") true ++ "\n```\n") ≠
      .ok [(("seoTitle"), .str ("T")), (("specs"), .str ("C:\\new")),
           (("confident"), .bool true)] := by
  decide
